import Mathlib

/-!
Verification of the whoosh posting codec, indexing pool, schema and
numeric-range query machinery against its natural-language specification.

The Python source is shallowly embedded: bytes are lists of naturals
(each < 256), Python ints are `Int`, fallible code returns `Except Err`.
Host endianness is passed explicitly as a `Bool` (`true` = little-endian)
so that statements about "regardless of host endianness" can be made.
-/

namespace Whoosh

/-- Bytes are modelled as lists of naturals; well-formed bytes are < 256. -/
abbrev Bytes := List Nat

/-- Error kinds raised by the embedded code.  Python exception classes are
collapsed to a small enumeration: `valueError` for ValueError,
`overflowError` for array/struct range failures, `structError` for
struct.pack/unpack failures, `fieldConfig` for FieldConfigurationError,
`exception` for plain Exception. -/
inductive Err where
  | valueError (msg : String)
  | overflowError
  | structError
  | fieldConfig (msg : String)
  | exception (msg : String)
  | indexError
  deriving DecidableEq, Repr

/-- Array typecodes that appear in the doc-list codec: unsigned 8/16/32-bit
and signed 64-bit, matching `MIN_TYPE_CODES = ("B", "H", "I", "q")` in
`src/src/whoosh/postings/basic.py`. -/
inductive TC where
  | B
  | H
  | I
  | q
  deriving DecidableEq, Repr

/-- `array(tc).itemsize`. -/
def TC.itemsize : TC → Nat
  | .B => 1
  | .H => 2
  | .I => 4
  | .q => 8

/-- The ASCII code of the typecode character, as written into headers. -/
def TC.ascii : TC → Nat
  | .B => 66
  | .H => 72
  | .I => 73
  | .q => 113

/-- Inverse of `TC.ascii`; decoding an unknown typecode character fails the
way `array(typecode)` raises ValueError. -/
def tcFromAscii (b : Nat) : Except Err TC :=
  if b = 66 then .ok .B
  else if b = 72 then .ok .H
  else if b = 73 then .ok .I
  else if b = 113 then .ok .q
  else .error (.valueError "bad typecode")

/-- Smallest value storable in the typecode (`array` range check). -/
def TC.minVal : TC → Int
  | .q => -(2 ^ 63)
  | _ => 0

/-- Largest value storable in the typecode (`array` range check). -/
def TC.maxVal : TC → Int
  | .B => 255
  | .H => 65535
  | .I => 4294967295
  | .q => 2 ^ 63 - 1

/-- Little-endian byte string of `x`, `k` bytes (low byte first). -/
def packLE : Nat → Nat → List Nat
  | 0, _ => []
  | k + 1, x => (x % 256) :: packLE k (x / 256)

/-- Big-endian byte string of `x`, `k` bytes. -/
def packBE (k x : Nat) : List Nat :=
  (packLE k x).reverse

/-- Read a little-endian natural from `k` bytes. -/
def natOfLE : List Nat → Nat
  | [] => 0
  | b :: rest => b % 256 + 256 * natOfLE rest

/-- Two's-complement byte payload of an in-range value for a typecode. -/
def TC.rep (tc : TC) (v : Int) : Nat :=
  (v % (2 ^ (8 * tc.itemsize))).toNat

/-- Reinterpret a raw natural (< 2^width) as the typecode's value:
unsigned for B/H/I, two's-complement signed for q. -/
def TC.val (tc : TC) (n : Nat) : Int :=
  match tc with
  | .q => if n < 2 ^ 63 then (n : Int) else (n : Int) - 2 ^ 64
  | _ => (n : Int)

/-- A Python `array` object: a typecode and the stored values. -/
structure PyArray where
  tc : TC
  items : List Int
  deriving DecidableEq, Repr

/-- `array(tc, nums)`: fails with OverflowError when a value does not fit
the typecode. -/
def mkArray (tc : TC) (nums : List Int) : Except Err PyArray :=
  if nums.all (fun v => tc.minVal ≤ v ∧ v ≤ tc.maxVal) then
    .ok ⟨tc, nums⟩
  else
    .error .overflowError

/-- `arr.tobytes()`: native byte order, controlled by the host flag
(`true` = little-endian host). -/
def PyArray.tobytes (hostLittle : Bool) (a : PyArray) : Bytes :=
  a.items.flatMap (fun v =>
    if hostLittle then packLE a.tc.itemsize (a.tc.rep v)
    else packBE a.tc.itemsize (a.tc.rep v))

/-- `arr.byteswap()`: every element is reinterpreted with its bytes
reversed. -/
def PyArray.byteswap (a : PyArray) : PyArray :=
  ⟨a.tc, a.items.map (fun v =>
    a.tc.val (natOfLE ((packLE a.tc.itemsize (a.tc.rep v)).reverse)))⟩

/-- Read `count` items of `itemsize` bytes each off the front of a byte
string, converting each chunk with `conv`. -/
def readItems (conv : List Nat → Int) (itemsize : Nat) :
    Nat → Bytes → List Int
  | 0, _ => []
  | count + 1, bs =>
    conv (bs.take itemsize) :: readItems conv itemsize count (bs.drop itemsize)

/-- `arr.frombytes(bs)` on a fresh array: split `bs` into items in native
byte order; fails (ValueError) when `bs` is not a whole number of items. -/
def arrayFrombytes (hostLittle : Bool) (tc : TC) (bs : Bytes) :
    Except Err (List Int) :=
  if bs.length % tc.itemsize = 0 then
    .ok (readItems
      (fun chunk => tc.val (natOfLE (if hostLittle then chunk else chunk.reverse)))
      tc.itemsize (bs.length / tc.itemsize) bs)
  else
    .error (.valueError "bytes not a multiple of itemsize")

/-- Python `max` over a list; raises on the empty list. -/
def pyMax : List Int → Except Err Int
  | [] => .error (.valueError "max of empty sequence")
  | x :: rest => .ok (rest.foldl max x)

/-- Modelled from the spec: `min_array_code` lives in
`whoosh/util/numlists.py`, which is not under `src/`.  Spec section 4.2
describes the choice as the smallest int array typecode that fits the
maximum value; `MIN_TYPE_CODES` in `src/src/whoosh/postings/basic.py`
fixes the 64-bit code as `"q"` (the fast path looks the returned code up
in that tuple, so the 64-bit code must be `q`). -/
def min_array_code (maxval : Int) : TC :=
  if maxval ≤ 255 then .B
  else if maxval ≤ 65535 then .H
  else if maxval ≤ 4294967295 then .I
  else .q

/-- `min_array(nums)` from `basic.py`: an array using the smallest
typecode necessary for the values (chosen from the maximum; a negative
value that the chosen unsigned code cannot hold raises OverflowError,
and `max` of an empty sequence raises ValueError). -/
def min_array (nums : List Int) : Except Err PyArray := do
  let m ← pyMax nums
  mkArray (min_array_code m) nums

/-! ## The character-ranges codec (`BasicIO.encode_ranges` /
`BasicIO.decode_ranges`, basic.py lines 443-483) -/

/-- The delta loop of `encode_ranges`: walking the `(start, end)` pairs
with a running base, rejecting out-of-order and negative ranges. -/
def rangeDeltas : Int → List (Int × Int) → Except Err (List Int)
  | _, [] => .ok []
  | base, (s, e) :: rest =>
    if s < base then .error (.valueError "range indices out of order")
    else if e < s then .error (.valueError "Negative range")
    else do
      let ds ← rangeDeltas e rest
      .ok ((s - base) :: (e - s) :: ds)

/-- `BasicIO.encode_ranges`: typecode character followed by the packed
delta array.  The array is written with `tobytes()` in NATIVE order; note
there is no byteswap here. -/
def encode_ranges (hostLittle : Bool) (ranges : List (Int × Int)) :
    Except Err Bytes := do
  let ds ← rangeDeltas 0 ranges
  let arr ← min_array ds
  .ok (arr.tc.ascii :: arr.tobytes hostLittle)

/-- The pairing loop of `decode_ranges`: rebuild `(start, end)` pairs from
the flat delta list. -/
def rangePairs : Int → List Int → List (Int × Int)
  | _, [] => []
  | _, [_] => []
  | base, a :: b :: rest =>
    (base + a, base + a + b) :: rangePairs (base + a + b) rest

/-- `BasicIO.decode_ranges`: reads the typecode character, loads the array
in native order, and then byteswaps it when the host IS little-endian
(`if IS_LITTLE: indices.byteswap()` — note every other decoder in
basic.py swaps when the host is NOT little-endian). -/
def decode_ranges (hostLittle : Bool) (src : Bytes) (offset size : Nat) :
    Except Err (List (Int × Int)) := do
  if size = 0 then
    .ok []
  else
    let tc ← tcFromAscii (src.getD offset 0)
    let raw := (src.drop (offset + 1)).take (size - 1)
    let indices0 ← arrayFrombytes hostLittle tc raw
    let indices := if hostLittle then (PyArray.byteswap ⟨tc, indices0⟩).items
                   else indices0
    if indices.length % 2 = 1 then
      .error (.exception "Odd number of range indices")
    else
      .ok (rangePairs 0 indices)

/-! ## Doc-id encoding (`BasicIO.encode_docids` / `decode_docids`) -/

/-- Modelled from the spec: `delta_encode` lives in
`whoosh/util/numlists.py`, which is not under `src/`.  Spec section 4.2
stores doc-ids delta-encoded: each value is emitted relative to a running
base that starts at 0. -/
def delta_encode : Int → List Int → List Int
  | _, [] => []
  | base, x :: rest => (x - base) :: delta_encode x rest

/-- Modelled from the spec: `delta_decode`, the inverse running-sum of
`delta_encode` (spec section 4.2). -/
def delta_decode : Int → List Int → List Int
  | _, [] => []
  | base, d :: rest => (base + d) :: delta_decode (base + d) rest

/-- The ascending-order check of `encode_docids`: a doc-id less than or
equal to the previous one (starting from -1) raises ValueError. -/
def checkAscending : Int → List Int → Except Err Unit
  | _, [] => .ok ()
  | prev, d :: rest =>
    if d ≤ prev then .error (.valueError "Doc ID is negative/out of order")
    else checkAscending d rest

/-- `BasicIO.encode_docids`: validates non-emptiness, non-negativity and
strict ascent, then stores the delta-encoded ids in the smallest array
typecode; the array is byteswapped on a big-endian host so the stored
bytes are always little-endian. -/
def encode_docids (hostLittle : Bool) (docids : List Int) :
    Except Err (TC × Bytes) := do
  if docids = [] then
    .error (.valueError "no docids")
  else if docids.any (· < 0) then
    .error (.valueError "Negative docid")
  else
    let _ ← checkAscending (-1) docids
    let arr ← min_array (delta_encode 0 docids)
    let arr := if hostLittle then arr else arr.byteswap
    .ok (arr.tc, arr.tobytes hostLittle)

/-- `BasicIO.decode_docids`: reads `count` items of the typecode at
`offset` in native order, byteswaps on a big-endian host, and running-sums
the deltas.  Returns the end offset and the ids. -/
def decode_docids (hostLittle : Bool) (src : Bytes) (offset : Nat)
    (tc : TC) (count : Nat) : Except Err (Nat × List Int) := do
  let stop := offset + tc.itemsize * count
  let raw := (src.drop offset).take (tc.itemsize * count)
  let arr0 ← arrayFrombytes hostLittle tc raw
  let arr := if hostLittle then arr0 else (PyArray.byteswap ⟨tc, arr0⟩).items
  .ok (stop, delta_decode 0 arr)

/-! ## The postings data model -/

/-- The posting format descriptor.  Modelled from the spec:
`whoosh/postings/postform.py` is not under `src/`; spec section 3 gives
the format as the five feature bit flags. -/
structure Format where
  has_lengths : Bool
  has_weights : Bool
  has_positions : Bool
  has_ranges : Bool
  has_payloads : Bool
  deriving DecidableEq, Repr

/-- Modelled from the spec: `Format.only_docids` holds when the format
claims no features at all (spec section 4.2, "doc-list, no features"). -/
def Format.only_docids (f : Format) : Bool :=
  !(f.has_lengths || f.has_weights || f.has_positions || f.has_ranges ||
    f.has_payloads)

/-- A raw posting tuple (spec section 3): doc-id, term bytes, length,
weight, and the three per-posting feature blobs already encoded to bytes.
Weights are rationals here; the codec claims under verification never
exercise the float32 array path. -/
structure RawPost where
  docid : Int
  termbytes : Option Bytes
  length : Option Int
  weight : Option Rat
  posBytes : Option Bytes
  rangeBytes : Option Bytes
  payBytes : Option Bytes
  deriving DecidableEq, Repr

/-- Flags bitfield (`make_flags` in basic.py): HAS_LENGTHS = 1,
HAS_WEIGHTS = 2, HAS_POSITIONS = 4, HAS_RANGES = 8, HAS_PAYLOADS = 16. -/
def make_flags (fmt : Format) : Nat :=
  (if fmt.has_lengths then 1 else 0) +
  (if fmt.has_weights then 2 else 0) +
  (if fmt.has_positions then 4 else 0) +
  (if fmt.has_ranges then 8 else 0) +
  (if fmt.has_payloads then 16 else 0)

/-! ## The minimal (fast-path) doc-list encoding -/

/-- `MIN_TYPE_CODES.index`: the two-bit number of a typecode. -/
def TC.typenum : TC → Nat
  | .B => 0
  | .H => 1
  | .I => 2
  | .q => 3

/-- `struct.pack` of one value in a typecode (standard size,
little-endian); out-of-range values raise struct.error. -/
def structPackLE (tc : TC) (v : Int) : Except Err Bytes :=
  if tc.minVal ≤ v ∧ v ≤ tc.maxVal then
    .ok (packLE tc.itemsize (tc.rep v))
  else
    .error .structError

/-- `struct.pack` of a list of values, all in the same typecode. -/
def structPackListLE (tc : TC) (vs : List Int) : Except Err Bytes := do
  let chunks ← vs.mapM (structPackLE tc)
  .ok chunks.flatten

/-- `struct.unpack` of `count` values of a typecode at `offset`
(little-endian standard sizes); a short buffer raises struct.error. -/
def structUnpackListLE (tc : TC) (count : Nat) (src : Bytes)
    (offset : Nat) : Except Err (List Int) :=
  if offset + tc.itemsize * count ≤ src.length then
    .ok (readItems (fun chunk => tc.val (natOfLE chunk)) tc.itemsize count
      (src.drop offset))
  else
    .error .structError

/-- `BasicIO._minimal_doclist_bytes`: one flags byte (high bit set, two
bits of typecode number, five bits of count-1) followed by the raw
doc-ids packed little-endian in the smallest typecode for the largest
id.  No ordering or sign validation happens on this path. -/
def minimal_doclist_bytes (posts : List RawPost) : Except Err Bytes := do
  let m ← pyMax (posts.map (·.docid))
  let body ← structPackListLE (min_array_code m) (posts.map (·.docid))
  .ok ((128 + (min_array_code m).typenum * 32 +
        ((posts.map (·.docid)).length - 1)) :: body)

/-! ## Lengths, weights and feature sections of a full block -/

/-- `PostingsIO._extract(posts, LENGTH)` followed by `min`/`max`: a
missing length turns into `b""`, which Python 3 then fails to compare
with ints (TypeError); the embedding raises at extraction instead. -/
def extractLengthList (posts : List RawPost) : Except Err (List Int) :=
  if posts.all (·.length.isSome) then
    .ok (posts.filterMap (·.length))
  else
    .error (.exception "length missing from posting")

/-- Python `min` on a nonempty list. -/
def pyMin : List Int → Except Err Int
  | [] => .error (.valueError "min of empty sequence")
  | x :: rest => .ok (rest.foldl min x)

/-- `BasicIO.encode_lengths`: one byte per length, each must be an int in
0..255 (else ValueError "Bad byte"). -/
def encode_lengths (lengths : List Int) : Except Err Bytes :=
  if lengths.all (fun n => 0 ≤ n ∧ n ≤ 255) then
    .ok (lengths.map Int.toNat)
  else
    .error (.valueError "Bad byte")

/-- `BasicIO.extract_lengths`: min/max lengths are computed whenever the
format stores lengths OR weights (both are needed for scoring); the
length bytes are only emitted when the format stores lengths. -/
def extract_lengths (fmt : Format) (posts : List RawPost) :
    Except Err (Int × Int × Bytes) := do
  if fmt.has_lengths || fmt.has_weights then
    let lengths ← extractLengthList posts
    let minlen ← pyMin lengths
    let maxlen ← pyMax lengths
    let len_bytes ← if fmt.has_lengths then encode_lengths lengths
                    else pure ([] : Bytes)
    .ok (minlen, maxlen, len_bytes)
  else
    .ok (1, 1, [])

/-- The weights typecode: `"0"` absent, `"1"` all ones, an int array
typecode, or `"f"` float32. -/
inductive WTc where
  | zero
  | one
  | intc (tc : TC)
  | floatc
  deriving DecidableEq, Repr

/-- ASCII code of the weights typecode character. -/
def WTc.ascii : WTc → Nat
  | .zero => 48
  | .one => 49
  | .intc tc => tc.ascii
  | .floatc => 102

/-- `BasicIO.compute_weights_size`: bytes per stored weight. -/
def WTc.itemsize : WTc → Nat
  | .zero => 0
  | .one => 0
  | .intc tc => tc.itemsize
  | .floatc => 4

/-- Python `int()` truncation toward zero of a rational. -/
def pyInt (q : Rat) : Int :=
  q.num / (q.den : Int)

/-- `BasicIO.encode_weights`: a missing weight is extracted as `b""` and
fails the isinstance check (ValueError "Bad weight"); all-ones weights
become the `"1"` flag with no bytes; whole-valued weights are stored as
the smallest int array.  The float32 array branch cannot be reached from
rational weights that are not whole, and is reported as unmodelled. -/
def encode_weights (hostLittle : Bool) (weights : List (Option Rat)) :
    Except Err (WTc × Bytes) := do
  if weights = [] || weights.any (·.isNone) then
    .error (.valueError "Bad weight")
  else
    let ws := weights.filterMap id
    if ws.all (· = 1) then
      .ok (.one, [])
    else
      let intweights := ws.map pyInt
      if (ws.zip intweights).all (fun p => p.1 = (p.2 : Rat)) then
        let arr ← min_array intweights
        let arr := if hostLittle then arr else arr.byteswap
        .ok (.intc arr.tc, arr.tobytes hostLittle)
      else
        .error (.exception "float32 weight arrays not modelled")

/-- `BasicIO.extract_weights`. -/
def extract_weights (hostLittle : Bool) (fmt : Format)
    (posts : List RawPost) : Except Err (WTc × Bytes) :=
  if fmt.has_weights then
    encode_weights hostLittle (posts.map (·.weight))
  else
    .ok (.zero, [])

/-- The offsets scan of `encode_chunk_list`: each chunk's offset is the
running sum of the (possibly byteswapped) length values before it. -/
def scanOffsets : Int → List Int → List Int
  | _, [] => []
  | base, l :: rest => base :: scanOffsets (base + l) rest

/-- `BasicIO.encode_chunk_list`: header `(offsets_tc, lengths_tc,
count_u32_le)`, then the packed offsets array, the packed lengths array,
and the concatenated chunks.  Note the source byteswaps the lengths
array (on a big-endian host) BEFORE computing offsets from its values,
and never swaps the offsets array. -/
def encode_chunk_list (hostLittle : Bool) (chunks : List Bytes) :
    Except Err Bytes := do
  let lens := chunks.map (fun c => (c.length : Int))
  let lenArr ← min_array lens
  let lenArr := if hostLittle then lenArr else lenArr.byteswap
  let offsets := scanOffsets 0 lenArr.items
  let offArr ← min_array offsets
  if chunks.length < 2 ^ 32 then
    .ok ([offArr.tc.ascii, lenArr.tc.ascii] ++ packLE 4 chunks.length ++
         offArr.tobytes hostLittle ++ lenArr.tobytes hostLittle ++
         chunks.flatten)
  else
    .error .structError

/-- `BasicIO.extract_features`: a chunk list for every enabled feature; a
missing blob is extracted as the empty byte string. -/
def extract_features (hostLittle : Bool) (fmt : Format)
    (posts : List RawPost) : Except Err (Bytes × Bytes × Bytes) := do
  let posB ← if fmt.has_positions then
      encode_chunk_list hostLittle (posts.map (fun p => p.posBytes.getD []))
    else pure ([] : Bytes)
  let rngB ← if fmt.has_ranges then
      encode_chunk_list hostLittle (posts.map (fun p => p.rangeBytes.getD []))
    else pure ([] : Bytes)
  let payB ← if fmt.has_payloads then
      encode_chunk_list hostLittle (posts.map (fun p => p.payBytes.getD []))
    else pure ([] : Bytes)
  .ok (posB, rngB, payB)

/-! ## The full doc-list block -/

/-- `struct.pack` of one standard signed 32-bit little-endian value. -/
def packI32LE (v : Int) : Except Err Bytes :=
  if -(2 ^ 31) ≤ v ∧ v ≤ 2 ^ 31 - 1 then
    .ok (packLE 4 ((v % 2 ^ 32).toNat))
  else
    .error .structError

/-- `struct.unpack` of a signed 32-bit little-endian value. -/
def unpackI32LE (bs : Bytes) : Int :=
  let n := natOfLE bs
  if n < 2 ^ 31 then (n : Int) else (n : Int) - 2 ^ 32

/-- `BasicIO.pack_doc_header`, struct `"<BH2ciiiii"`: flags byte, u16
posting count, ids and weights typecode characters, i32 min/max length
and the three feature section lengths.  25 bytes in all. -/
def pack_doc_header (flags count : Nat) (minlen maxlen : Int)
    (ids_tc : TC) (w_tc : WTc) (poslen rangeslen paylen : Nat) :
    Except Err Bytes := do
  if flags ≤ 255 ∧ count ≤ 65535 then
    let mn ← packI32LE minlen
    let mx ← packI32LE maxlen
    let pl ← packI32LE (poslen : Int)
    let rl ← packI32LE (rangeslen : Int)
    let yl ← packI32LE (paylen : Int)
    .ok ([flags] ++ packLE 2 count ++ [ids_tc.ascii, w_tc.ascii] ++
         mn ++ mx ++ pl ++ rl ++ yl)
  else
    .error .structError

/-- The non-minimal branch of `BasicIO.doclist_to_bytes`: header then
ids, lengths, weights and feature sections in order. -/
def full_doclist_bytes (hostLittle : Bool) (fmt : Format)
    (posts : List RawPost) : Except Err Bytes := do
  let flags := make_flags fmt
  let (ids_tc, ids_bytes) ← encode_docids hostLittle (posts.map (·.docid))
  let (minlen, maxlen, len_bytes) ← extract_lengths fmt posts
  let (w_code, w_bytes) ← extract_weights hostLittle fmt posts
  let (pos_bytes, rng_bytes, pay_bytes) ← extract_features hostLittle fmt posts
  let header ← pack_doc_header flags posts.length minlen maxlen ids_tc
      w_code pos_bytes.length rng_bytes.length pay_bytes.length
  .ok (header ++ ids_bytes ++ len_bytes ++ w_bytes ++ pos_bytes ++
       rng_bytes ++ pay_bytes)

/-- `BasicIO.USE_MIN`. -/
def USE_MIN : Bool := true

/-- `BasicIO.doclist_to_bytes`: empty post lists are rejected; a
featureless block of at most 32 postings takes the minimal fast path;
everything else gets the full header. -/
def doclist_to_bytes (hostLittle : Bool) (fmt : Format)
    (posts : List RawPost) : Except Err Bytes :=
  if posts = [] then
    .error (.valueError "Empty document postings list")
  else if USE_MIN && fmt.only_docids && posts.length ≤ 32 then
    minimal_doclist_bytes posts
  else
    full_doclist_bytes hostLittle fmt posts

/-! ## Reading doc-list blocks -/

/-- Decoding of the weights typecode character on read. -/
def wtcFromAscii (b : Nat) : Except Err WTc :=
  if b = 48 then .ok .zero
  else if b = 49 then .ok .one
  else if b = 102 then .ok .floatc
  else do
    let tc ← tcFromAscii b
    .ok (.intc tc)

/-- The state of a constructed `BasicDocListReader`: the source bytes and
offset it was built from, the unpacked header fields, the decoded ids and
the computed section offsets. -/
structure BasicR where
  src : Bytes
  offset : Nat
  count : Nat
  idsTc : TC
  wTc : WTc
  minLen : Int
  maxLen : Int
  ids : List Int
  hasLengths : Bool
  hasWeights : Bool
  hasPositions : Bool
  hasRanges : Bool
  hasPayloads : Bool
  lensOffset : Option Nat
  weightsOffset : Nat
  posesSize : Nat
  rangesSize : Nat
  paysSize : Nat
  posesOffset : Nat
  rangesOffset : Nat
  paysOffset : Nat
  endOffset : Nat
  deriving DecidableEq, Repr

/-- `BasicIO.unpack_doc_header`: unpack the 25-byte `"<BH2ciiiii"` header
at `offset`.  Returns the fields and the end-of-header offset. -/
def unpack_doc_header (src : Bytes) (offset : Nat) :
    Except Err (Nat × Nat × TC × WTc × Int × Int × Nat × Nat × Nat × Nat) := do
  if offset + 25 ≤ src.length then
    let b := src.drop offset
    let flags := b.getD 0 0
    let count := natOfLE ((b.drop 1).take 2)
    let idsTc ← tcFromAscii (b.getD 3 0)
    let wTc ← wtcFromAscii (b.getD 4 0)
    let minlen := unpackI32LE ((b.drop 5).take 4)
    let maxlen := unpackI32LE ((b.drop 9).take 4)
    let poslen := (unpackI32LE ((b.drop 13).take 4)).toNat
    let rangeslen := (unpackI32LE ((b.drop 17).take 4)).toNat
    let paylen := (unpackI32LE ((b.drop 21).take 4)).toNat
    .ok (flags, count, idsTc, wTc, minlen, maxlen, poslen, rangeslen,
         paylen, offset + 25)
  else
    .error .structError

/-- Construction of a `BasicDocListReader`: unpack the header, decode the
ids, then lay out the lengths / weights / feature sections
(`_setup_offsets`). -/
def basicDocListReader (hostLittle : Bool) (src : Bytes) (offset : Nat) :
    Except Err BasicR := do
  let (flags, count, idsTc, wTc, minLen, maxLen, posesSize, rangesSize,
       paysSize, hEnd) ← unpack_doc_header src offset
  let (idsEnd, ids) ← decode_docids hostLittle src hEnd idsTc count
  let hasLengths := flags &&& 1 ≠ 0
  let lensOffset := if hasLengths then some idsEnd else none
  let afterLens := if hasLengths then idsEnd + count else idsEnd
  let weightsSize := wTc.itemsize * count
  let posesOffset := afterLens + weightsSize
  let rangesOffset := posesOffset + posesSize
  let paysOffset := rangesOffset + rangesSize
  .ok {
    src := src
    offset := offset
    count := count
    idsTc := idsTc
    wTc := wTc
    minLen := minLen
    maxLen := maxLen
    ids := ids
    hasLengths := hasLengths
    hasWeights := flags &&& 2 ≠ 0
    hasPositions := flags &&& 4 ≠ 0
    hasRanges := flags &&& 8 ≠ 0
    hasPayloads := flags &&& 16 ≠ 0
    lensOffset := lensOffset
    weightsOffset := afterLens
    posesSize := posesSize
    rangesSize := rangesSize
    paysSize := paysSize
    posesOffset := posesOffset
    rangesOffset := rangesOffset
    paysOffset := paysOffset
    endOffset := paysOffset + paysSize
  }

/-- A doc-list reader: either a `MinimalDocListReader` (decoded ids plus
the raw-bytes argument, which `doclist_reader` leaves at its default
`b""`) or a `BasicDocListReader`. -/
inductive DocListR where
  | minimal (docids : List Int) (raw : Bytes)
  | basic (r : BasicR)
  deriving DecidableEq, Repr

/-- `MIN_TYPE_CODES[typenum]`. -/
def tcOfTypenum (n : Nat) : TC :=
  if n = 0 then .B
  else if n = 1 then .H
  else if n = 2 then .I
  else .q

/-- `BasicIO.doclist_reader`: an offset past the end raises IndexError;
a flags byte with the high bit set selects the minimal decoding, which
re-reads the packed ids and builds a `MinimalDocListReader` WITHOUT
passing the source bytes; otherwise a full `BasicDocListReader` is built
on the source. -/
def doclist_reader (hostLittle : Bool) (src : Bytes) (offset : Nat) :
    Except Err DocListR := do
  if offset ≥ src.length then
    .error .indexError
  else
    let flagByte := src.getD offset 0
    if flagByte &&& 128 ≠ 0 then
      let typenum := (flagByte &&& 96) >>> 5
      let tc := tcOfTypenum typenum
      let count := (flagByte &&& 31) + 1
      let docids ← structUnpackListLE tc count src (offset + 1)
      .ok (.minimal docids [])
    else do
      let r ← basicDocListReader hostLittle src offset
      .ok (.basic r)

/-- `raw_bytes()`: the minimal reader returns the raw bytes it was given
(the empty string by default); the basic reader returns the source span
from its offset to the computed block end. -/
def DocListR.raw_bytes : DocListR → Bytes
  | .minimal _ raw => raw
  | .basic r => (r.src.drop r.offset).take (r.endOffset - r.offset)

/-- `size_in_bytes()`. -/
def DocListR.size_in_bytes : DocListR → Nat
  | .minimal _ raw => raw.length
  | .basic r => r.endOffset - r.offset

/-- `all_ids()`. -/
def DocListR.all_ids : DocListR → List Int
  | .minimal docids _ => docids
  | .basic r => r.ids

/-- `min_length()`: the minimal reader fixes it at 1. -/
def DocListR.min_length : DocListR → Int
  | .minimal _ _ => 1
  | .basic r => r.minLen

/-- `max_length()`: the minimal reader fixes it at 1. -/
def DocListR.max_length : DocListR → Int
  | .minimal _ _ => 1
  | .basic r => r.maxLen

/-! ## The indexing pool (`src/src/whoosh/filedb/pools.py`)

Pool postings are the 5-tuples `(fieldnum, text, docnum, freq,
valuestring)` that `dump_run` marshals to run files; Python compares
them lexicographically.  Term text and value strings are byte strings,
modelled as `List Nat`. -/

/-- A pool posting tuple. -/
structure Post5 where
  fieldnum : Int
  text : List Nat
  docnum : Int
  freq : Int
  value : List Nat
  deriving DecidableEq, Repr

/-- Lexicographic byte-string comparison (Python `<` on bytes). -/
def bytesLt : List Nat → List Nat → Bool
  | [], [] => false
  | [], _ :: _ => true
  | _ :: _, [] => false
  | a :: as_, b :: bs =>
    if a < b then true
    else if b < a then false
    else bytesLt as_ bs

/-- Python tuple comparison on pool postings. -/
def Post5.lt (p q : Post5) : Bool :=
  if p.fieldnum < q.fieldnum then true
  else if q.fieldnum < p.fieldnum then false
  else if bytesLt p.text q.text then true
  else if bytesLt q.text p.text then false
  else if p.docnum < q.docnum then true
  else if q.docnum < p.docnum then false
  else if p.freq < q.freq then true
  else if q.freq < p.freq then false
  else bytesLt p.value q.value

/-- Stable insertion into a sorted list (ascending, new element after
equals), as Python's stable sort orders equal elements. -/
def insertPost (p : Post5) : List Post5 → List Post5
  | [] => [p]
  | q :: rest => if p.lt q then p :: q :: rest else q :: insertPost p rest

/-- `postings.sort()`. -/
def sortPosts (ps : List Post5) : List Post5 :=
  ps.foldr insertPost []

/-- Locate the (first) run whose head is strictly minimal among the
current run heads: index and head value. -/
def bestHead : Nat → Option (Nat × Post5) → List (List Post5) →
    Option (Nat × Post5)
  | _, best, [] => best
  | i, best, [] :: rest => bestHead (i + 1) best rest
  | i, best, (q :: _) :: rest =>
    match best with
    | none => bestHead (i + 1) (some (i, q)) rest
    | some (j, m) =>
      if q.lt m then bestHead (i + 1) (some (i, q)) rest
      else bestHead (i + 1) (some (j, m)) rest

/-- Remove the head of the i-th run. -/
def dropHeadAt : Nat → List (List Post5) → List (List Post5)
  | _, [] => []
  | 0, [] :: rest => [] :: rest
  | 0, (_ :: qs) :: rest => qs :: rest
  | n + 1, r :: rest => r :: dropHeadAt n rest

/-- The merge loop, driven by fuel (the total number of postings
bounds the number of emissions). -/
def imergeFuel : Nat → List (List Post5) → List Post5
  | 0, _ => []
  | fuel + 1, runs =>
    match bestHead 0 none runs with
    | none => []
    | some (i, m) => m :: imergeFuel fuel (dropHeadAt i runs)

/-- `imerge(iterators)`: heap merge of the run streams.  For distinct
items the heap yields the minimal remaining head at each step; the tie
order between equal tuples is not fixed by the source (the heap compares
`(item, generator)` pairs), and this model takes the first run. -/
def imerge (runs : List (List Post5)) : List Post5 :=
  imergeFuel (runs.map List.length).sum runs

/-- A term-table entry: `(fieldnum, text) -> (freq, offset, postcount)`
as recorded by `write_postings`. -/
abbrev TermEntry := (Int × List Nat) × (Int × Nat × Nat)

/-- The loop state of `write_postings`: the current term, its running
freq, the offset returned by the last `postwriter.start`, the number of
`write` calls in the current block, and the output so far.  The post
writer is modelled abstractly: its n-th `start` call returns n, and
`finish` returns the number of `write` calls since the last `start`. -/
structure WPState where
  first : Bool
  cf : Int
  ct : List Nat
  cfreq : Int
  offset : Nat
  blockCount : Nat
  startCalls : Nat
  table : List TermEntry
  writes : List (Int × List Nat × Nat)
  deriving DecidableEq, Repr

/-- One iteration of the `write_postings` loop over a posting
`(fieldnum, text, docnum, freq, valuestring)`. -/
def wpStep (getlength : Int → Int → Nat) (st : WPState) (p : Post5) :
    Except Err WPState :=
  let write := fun (s : WPState) =>
    { s with
        cfreq := s.cfreq + p.freq
        blockCount := s.blockCount + 1
        writes := s.writes ++ [(p.docnum, p.value, getlength p.docnum p.fieldnum)] }
  if st.first || st.cf < p.fieldnum || bytesLt st.ct p.text then
    let table := if st.first then st.table
      else st.table ++ [((st.cf, st.ct), (st.cfreq, st.offset, st.blockCount))]
    .ok (write { st with
      first := false
      cf := p.fieldnum
      ct := p.text
      cfreq := 0
      offset := st.startCalls
      blockCount := 0
      startCalls := st.startCalls + 1
      table := table })
  else if p.fieldnum < st.cf || (p.fieldnum = st.cf && bytesLt p.text st.ct) then
    .error (.exception "Postings are out of order")
  else
    .ok (write st)

/-- `write_postings(schema, termtable, lengths, postwriter, postiter)`:
fold the loop over the posting stream and flush the final uncommitted
term.  Returns the term-table entries and the posting writes. -/
def write_postings (getlength : Int → Int → Nat) (posts : List Post5) :
    Except Err (List TermEntry × List (Int × List Nat × Nat)) := do
  let st0 : WPState :=
    ⟨true, 0, [], 0, 0, 0, 0, [], []⟩
  let st ← posts.foldlM (wpStep getlength) st0
  if st.first then
    .ok (st.table, st.writes)
  else
    .ok (st.table ++ [((st.cf, st.ct), (st.cfreq, st.offset, st.blockCount))],
         st.writes)

/-! ## `TempfilePool` -/

/-- Insertion sort of field numbers (ascending), for
`sorted(self.length_arrays.keys())`. -/
def insertInt (x : Int) : List Int → List Int
  | [] => [x]
  | y :: rest => if x < y then x :: y :: rest else y :: insertInt x rest

/-- `sorted` on a list of ints. -/
def sortInts (xs : List Int) : List Int :=
  xs.foldr insertInt []

/-- First-match association lookup. -/
def lookupA {α : Type} (k : Int) : List (Int × α) → Option α
  | [] => none
  | (j, v) :: rest => if j = k then some v else lookupA k rest

/-- The pool state that `finish` consumes: the per-field length byte
arrays, the in-memory postings, and the contents of the spilled runs
(what `read_run` yields back from each run file). -/
structure PoolState where
  lengthArrays : List (Int × List Nat)
  postings : List Post5
  runs : List (List Post5)
  deriving Repr

/-- `TempfilePool._lengths_array(doccount)`: concatenate the per-field
byte arrays in sorted field-number order, padding each shorter array
with zero bytes up to `doccount`. -/
def lengths_array (doccount : Nat) (arrays : List (Int × List Nat)) :
    List Nat :=
  (sortInts (arrays.map (·.1))).flatMap (fun k =>
    let a := (lookupA k arrays).getD []
    a ++ List.replicate (doccount - a.length) 0)

/-- The posting-iterator selection inside `TempfilePool.finish`: sorted
in-memory postings when there are no runs; nothing when there is nothing;
otherwise a merge OF THE RUNS ONLY (the in-memory postings are not
included in this branch). -/
def finish_postiter (st : PoolState) : List Post5 :=
  if st.postings ≠ [] ∧ st.runs.length = 0 then
    sortPosts st.postings
  else if st.postings = [] ∧ st.runs = [] then
    []
  else
    imerge st.runs

/-- Modelled from the spec: `MemoryLengthReader.get` comes from
`whoosh/filedb/filetables.py`, which is not under `src/`.  Spec section 6
lays the length file out as concatenated per-field one-byte-per-doc
arrays in sorted field-id order, so the length of `(docnum, fieldnum)`
is read at `field_index * doccount + docnum`. -/
def memoryLengthGet (lenarray : List Nat) (doccount : Nat)
    (scorables : List Int) (docnum fieldnum : Int) : Nat :=
  match (sortInts scorables).indexOf? fieldnum with
  | none => 0
  | some i => lenarray.getD (i * doccount + docnum.toNat) 0

/-- `TempfilePool.finish(doccount, lengthfile, termtable, postingwriter)`:
finalise the length file from `_lengths_array`, then run
`write_postings` over the selected posting iterator with lengths served
from the in-memory length reader. -/
def pool_finish (doccount : Nat) (scorables : List Int) (st : PoolState) :
    List Nat ×
      Except Err (List TermEntry × List (Int × List Nat × Nat)) :=
  let lengtharray := lengths_array doccount st.lengthArrays
  let getlength := memoryLengthGet lengtharray doccount scorables
  (lengtharray, write_postings getlength (finish_postiter st))

/-! ## Numeric fields (`src/src/whoosh/fields.py`) -/

/-- The configuration of a `Numeric` field with int numtype (the claims
under verification concern integer fields; the float and Decimal numtype
paths are outside them): bit width, signedness, tier step and the field
boost used as posting weight. -/
structure NumericField where
  bits : Nat
  signed : Bool
  shift_step : Nat
  field_boost : Rat
  deriving DecidableEq, Repr

/-- Modelled from the spec: `to_sortable` lives in
`whoosh/util/numeric.py`, which is not under `src/`.  Spec section 4.1:
map values so unsigned comparison equals natural order; for signed
integers flip the sign bit, i.e. add `2^(bits-1)`. -/
def to_sortable (bits : Nat) (signed : Bool) (x : Int) : Int :=
  if signed then x + 2 ^ (bits - 1) else x

/-- Modelled from the spec: `from_sortable`, the inverse of
`to_sortable` (spec section 4.1). -/
def from_sortable (bits : Nat) (signed : Bool) (x : Int) : Int :=
  if signed then x - 2 ^ (bits - 1) else x

/-- `Numeric._min_max`: the minimum representable value,
`from_sortable(0)`. -/
def NumericField.minValue (f : NumericField) : Int :=
  from_sortable f.bits f.signed 0

/-- `Numeric._min_max`: the maximum representable value,
`from_sortable(2^bits - 1)`. -/
def NumericField.maxValue (f : NumericField) : Int :=
  from_sortable f.bits f.signed (2 ^ f.bits - 1)

/-- `Numeric.prepare_number` on an int value with no decimal places:
range-check against the field's min/max (ValueError outside). -/
def prepare_number (f : NumericField) (x : Int) : Except Err Int :=
  if x < f.minValue ∨ f.maxValue < x then
    .error (.valueError "Numeric field value out of range")
  else
    .ok x

/-- Python `>>` on a (possibly negative) int: arithmetic shift, i.e.
floor division by a power of two. -/
def intShr (x : Int) (k : Nat) : Int :=
  Int.fdiv x (2 ^ k)

/-- `struct.pack` of one big-endian unsigned value of `width` bytes
(the field's `">B"/" >H"/">I"/">Q"` struct); out-of-range raises. -/
def packBEChecked (width : Nat) (x : Int) : Except Err Bytes :=
  if 0 ≤ x ∧ x < 2 ^ (8 * width) then
    .ok (packBE width x.toNat)
  else
    .error .structError

/-- `Numeric.sortable_to_bytes(x, shift)`: `pack_byte(shift)` followed by
the full-width big-endian encoding of `x >> shift` (the shift is applied
only when nonzero, which is the same thing). -/
def sortable_to_bytes (f : NumericField) (x : Int) (shift : Nat) :
    Except Err Bytes := do
  if shift ≤ 255 then
    let body ← packBEChecked (f.bits / 8) (if shift ≠ 0 then intShr x shift else x)
    .ok (shift :: body)
  else
    .error .structError

/-- `Numeric.to_bytes(x, shift)` on an int value: prepare, map to
sortable space, and encode. -/
def numeric_to_bytes (f : NumericField) (x : Int) (shift : Nat) :
    Except Err Bytes := do
  let x ← prepare_number f x
  sortable_to_bytes f (to_sortable f.bits f.signed x) shift

/-- Python `range(start, stop, step)` for a positive step. -/
def pyRange (start stop step : Nat) : List Nat :=
  if step = 0 then []
  else
    (List.range ((stop - start + step - 1) / step)).map (fun i => start + i * step)

/-- `Numeric.index` on a single (non-string, non-list) in-range value:
one posting per tier when `shift_step` is nonzero, otherwise a single
full-precision posting.  Every posting carries the same doc id, a length
equal to the number of values (here 1) and the field boost as weight. -/
def numericIndex (f : NumericField) (v : Int) (docid : Int) :
    Except Err (Nat × List RawPost) := do
  let posts ←
    if f.shift_step ≠ 0 then
      (pyRange 0 f.bits f.shift_step).mapM (fun shift => do
        let tb ← numeric_to_bytes f v shift
        pure (RawPost.mk docid (some tb) (some 1) (some f.field_boost)
              none none none))
    else do
      let tb ← numeric_to_bytes f v 0
      pure [RawPost.mk docid (some tb) (some 1) (some f.field_boost)
            none none none]
  .ok (1, posts)

/-! ## Schema (`src/src/whoosh/fields.py`) -/

/-- A field as the schema sees it: only its subfield structure matters
for `Schema.add`.  Each subfield is a name transformer plus a field; the
source derives subfield names from the parent name (for example
`"spell_%s" % fieldname`), modelled as a prefix prepended to it. -/
inductive FieldT where
  | mk (subs : List (String × FieldT))

/-- The subfield list of a field. -/
def FieldT.subs : FieldT → List (String × FieldT)
  | .mk s => s

/-- First-match association lookup keyed by strings. -/
def lookupS {α : Type} (k : String) : List (String × α) → Option α
  | [] => none
  | (j, v) :: rest => if j = k then some v else lookupS k rest

/-- Replace-or-append update of a string-keyed association list (Python
dict assignment). -/
def setS {α : Type} (k : String) (v : α) : List (String × α) →
    List (String × α)
  | [] => [(k, v)]
  | (j, w) :: rest =>
    if j = k then (j, v) :: rest else (j, w) :: setS k v rest

/-- Modelled from the spec: glob matching of `fnmatch` (the source
compiles `fnmatch.translate(name)` from the standard library, outside
the repository).  Spec section 8: patterns with `?`/`*` match per Unix
fnmatch semantics — `*` matches any sequence, `?` any single character,
anything else itself; the whole name must match. -/
def globMatchL : List Char → List Char → Bool
  | [], [] => true
  | [], _ :: _ => false
  | c :: ps, cs =>
    if c = '*' then
      globMatchL ps cs ||
        (match cs with
         | [] => false
         | _ :: cs2 => globMatchL (c :: ps) cs2)
    else
      match cs with
      | [] => false
      | d :: cs2 => (c = '?' || c = d) && globMatchL ps cs2
termination_by ps cs => (ps.length, cs.length)

/-- Glob matching on strings. -/
def globMatch (pat name : String) : Bool :=
  globMatchL pat.toList name.toList

/-- The schema state: the static field map, the dynamic (glob) field
map and the parent-to-subfield-names map, all insertion-ordered. -/
structure Schema where
  fields : List (String × FieldT)
  dynFields : List (String × FieldT)
  subfieldsMap : List (String × List String)

/-- Whether a name contains a glob character. -/
def hasGlobChar (name : String) : Bool :=
  name.contains '?' || name.contains '*'

mutual

/-- `Schema.add(name, field, glob)` together with its recursion over the
field's subfields.  The checks: `_`-prefixed names, names with spaces
and duplicates raise FieldConfigurationError; glob names (or a true
`glob` argument) are stored dynamically, everything else statically; the
subfield-name list of the parent is recorded and every subfield is added
recursively (with `glob=False`). -/
def schemaAdd (s : Schema) (name : String) (f : FieldT) (glob : Bool) :
    Except Err Schema :=
  match f with
  | .mk subs =>
    let isglob := glob || hasGlobChar name
    if name.startsWith "_" then
      .error (.fieldConfig "Names cannot start with _")
    else if name.contains ' ' then
      .error (.fieldConfig "Names cannot contain spaces")
    else if (lookupS name s.fields).isSome ||
        (isglob && (lookupS name s.dynFields).isSome) then
      .error (.fieldConfig "already in schema")
    else
      let s1 := if isglob then
          { s with dynFields := s.dynFields ++ [(name, FieldT.mk subs)] }
        else
          { s with fields := s.fields ++ [(name, FieldT.mk subs)] }
      let subnames := subs.map (fun p => p.1 ++ name)
      let s2 := { s1 with subfieldsMap := setS name subnames s1.subfieldsMap }
      schemaAddSubs s2 name subs
termination_by sizeOf f

/-- The `for subname, subfield in field.subfields(name)` loop of
`Schema.add`. -/
def schemaAddSubs (s : Schema) (parent : String) :
    List (String × FieldT) → Except Err Schema
  | [] => .ok s
  | (pre, g) :: rest => do
    let s2 ← schemaAdd s (pre ++ parent) g false
    schemaAddSubs s2 parent rest
termination_by l => sizeOf l

end

/-- `Schema.__getitem__`: the static map first; on a miss, the dynamic
patterns in insertion order, first match wins. -/
def schemaGet (s : Schema) (name : String) : Option FieldT :=
  match lookupS name s.fields with
  | some f => some f
  | none =>
    match s.dynFields.find? (fun p => globMatch p.1 name) with
    | some p => some p.2
    | none => none

mutual

/-- The source derives every subfield name by prepending a nonempty
prefix to the parent name (`"spell_%s" % fieldname`): a field is
well-formed when all its subfield prefixes, recursively, are
nonempty. -/
def FieldT.goodPrefixes : FieldT → Bool
  | .mk subs => subsGoodPrefixes subs

/-- `goodPrefixes` over a subfield list. -/
def subsGoodPrefixes : List (String × FieldT) → Bool
  | [] => true
  | (pre, g) :: rest =>
    (pre != "") && g.goodPrefixes && subsGoodPrefixes rest

end

/-- Monotonicity of a schema transition: every binding visible in the
static and dynamic maps stays visible (`Schema.add` only ever appends
new entries). -/
def MonoFD (s s2 : Schema) : Prop :=
  (∀ k v, lookupS k s.fields = some v → lookupS k s2.fields = some v) ∧
  (∀ k v, lookupS k s.dynFields = some v → lookupS k s2.dynFields = some v)

/-! ## Range queries (`src/src/whoosh/query/ranges.py`) -/

/-- A query bound / term-text value: Python `None`, a string, a byte
string or a number. -/
inductive BV where
  | nullv
  | str (s : String)
  | bytes (b : Bytes)
  | num (n : Int)
  deriving DecidableEq, Repr

/-- The query nodes produced by the range machinery.  `rangeQ` is a
plain `Range`, before specialisation.  Extent tracking
(`set_extent`, `startchar`/`endchar`) carries positions through
unchanged and is omitted. -/
inductive Q where
  | nullQ
  | everyQ (fieldname : Option String) (boost : Rat)
  | termQ (fieldname : String) (text : BV) (boost : Rat)
  | termRangeQ (fieldname : String) (start stop : BV)
      (startexcl endexcl : Bool) (boost : Rat) (constantscore : Bool)
  | rangeQ (fieldname : String) (start stop : BV)
      (startexcl endexcl : Bool) (boost : Rat) (constantscore : Bool)
  | orQ (subs : List Q) (boost : Rat)
  | constantScoreQ (child : Q) (boost : Rat)

/-- `self.start in ('', None)` of `Range.normalize`. -/
def startEmptyish (v : BV) : Bool :=
  v = .str "" || v = .nullv

/-- `self.end in (u'￿', None)` of `Range.normalize`. -/
def endOpenish (v : BV) : Bool :=
  v = .str "￿" || v = .nullv

/-- `Range.normalize` (ranges.py lines 145-156): an unbounded range
becomes `Every`; a single point with an exclusive end becomes
`NullQuery`; anything else is returned unchanged. -/
def rangeNormalize (fieldname : String) (start stop : BV)
    (startexcl endexcl : Bool) (boost : Rat) (constantscore : Bool) : Q :=
  if startEmptyish start && endOpenish stop then
    .everyQ (some fieldname) boost
  else if start = stop && (startexcl || endexcl) then
    .nullQ
  else
    .rangeQ fieldname start stop startexcl endexcl boost constantscore

/-- `TermRange.normalize` (ranges.py lines 281-299): like the base
normalize but an inclusive single point becomes a `Term`, and any other
range is rebuilt as a `TermRange`. -/
def termRangeNormalize (fieldname : String) (start stop : BV)
    (startexcl endexcl : Bool) (boost : Rat) (constantscore : Bool) : Q :=
  if startEmptyish start && endOpenish stop then
    .everyQ (some fieldname) boost
  else if start = stop then
    if startexcl || endexcl then
      .nullQ
    else
      .termQ fieldname start boost
  else
    .termRangeQ fieldname start stop startexcl endexcl boost constantscore

/-! ## `NumericRange.simplify` -/

/-- Modelled from the spec: `split_ranges` lives in
`whoosh/util/numeric.py`, which is not under `src/`.  Spec sections 4.1
and 4.5: it yields `(sub_lo, sub_hi, shift)` triples whose shifted
prefixes cover `[lo, hi]` as a disjoint union — so an empty range yields
nothing — with edges at fine resolution, the interior at coarse
resolution, and always the coarsest covering that does not overshoot
the endpoints.  At each level the range is trimmed to whole
`2^(shift+step)`-aligned blocks, the unaligned edges are emitted at the
current resolution, and the aligned interior is processed one level
coarser. -/
def splitRanges (bits step : Nat) : Nat → Int → Int →
    List (Int × Int × Nat)
  | shift, lo, hi =>
    if hi < lo then []
    else if step = 0 ∨ bits ≤ shift + step then [(lo, hi, shift)]
    else
      let block : Int := 2 ^ (shift + step)
      let alo := if lo % block = 0 then lo else block * (Int.fdiv lo block + 1)
      let ahi := if (hi + 1) % block = 0 then hi
                 else block * Int.fdiv (hi + 1) block - 1
      if ahi < alo then [(lo, hi, shift)]
      else
        (if lo < alo then [(lo, alo - 1, shift)] else []) ++
        (if ahi < hi then [(ahi + 1, hi, shift)] else []) ++
        splitRanges bits step (shift + step) alo ahi
termination_by shift _ _ => bits - shift
decreasing_by omega

/-- The numeric-range query object: bounds are numbers (or open). -/
structure NumRangeData where
  fieldname : String
  start : Option Int
  stop : Option Int
  startexcl : Bool
  endexcl : Bool
  boost : Rat
  constantscore : Bool
  deriving DecidableEq, Repr

/-- The loop body of `NumericRange.simplify` (ranges.py lines 411-418):
a one-point sub-range becomes a `Term` on its sortable bytes, any other
becomes a `TermRange` between the two shifted byte keys (with default
boost 1 and default constantscore). -/
def tierSubquery (f : NumericField) (fieldname : String)
    (t : Int × Int × Nat) : Except Err Q := do
  let (lo, hi, shift) := t
  if lo = hi then
    let b ← sortable_to_bytes f lo shift
    pure (Q.termQ fieldname (.bytes b) 1)
  else
    let sb ← sortable_to_bytes f lo shift
    let eb ← sortable_to_bytes f hi shift
    pure (Q.termRangeQ fieldname (.bytes sb) (.bytes eb) false false 1 true)

/-- The second half of `NumericRange.simplify` (ranges.py lines
402-429), on the already-translated bounds: split into tiers (only when
`shift_step` is nonzero — otherwise the single full-precision range is
used as is), emit the per-tier subqueries, and combine (a single
subquery stands alone; several are joined with `Or`; none at all is
`NullQuery`, returned without the constant-score wrap). -/
def numericSimplifyCore (f : NumericField) (d : NumRangeData)
    (start stop : Int) : Except Err Q := do
  let ranges := if f.shift_step ≠ 0 then
      splitRanges f.bits f.shift_step 0 start stop
    else
      [(start, stop, 0)]
  let subqueries ← ranges.mapM (tierSubquery f d.fieldname)
  match subqueries with
  | [q] => pure (if d.constantscore then Q.constantScoreQ q d.boost else q)
  | [] => pure Q.nullQ
  | qs => pure (if d.constantscore then Q.constantScoreQ (Q.orQ qs d.boost) d.boost
                else Q.orQ qs d.boost)

/-- `NumericRange.simplify` (ranges.py lines 369-429) for an int numeric
field: translate the bounds to sortable space with the
inclusive/exclusive adjustment, then split, emit and combine. -/
def numericSimplify (f : NumericField) (d : NumRangeData) :
    Except Err Q := do
  let start ← match d.start with
    | none => pure (0 : Int)
    | some s0 => do
        let s1 ← prepare_number f s0
        let s2 := to_sortable f.bits f.signed s1
        pure (if d.startexcl then s2 + 1 else s2)
  let stop ← match d.stop with
    | none => pure (2 ^ f.bits - 1 : Int)
    | some e0 => do
        let e1 ← prepare_number f e0
        let e2 := to_sortable f.bits f.signed e1
        pure (if d.endexcl then e2 - 1 else e2)
  numericSimplifyCore f d start stop

/-- The adjusted start of the claimed simplify pipeline: a missing start
is 0; otherwise the prepared value in sortable space, plus one when the
start is exclusive. -/
def adjustedStart (f : NumericField) (d : NumRangeData) :
    Except Err Int :=
  match d.start with
  | none => pure 0
  | some s0 => do
    let s1 ← prepare_number f s0
    pure (if d.startexcl then to_sortable f.bits f.signed s1 + 1
          else to_sortable f.bits f.signed s1)

/-- The adjusted end of the claimed simplify pipeline: a missing end is
`2^bits - 1`; otherwise the prepared value in sortable space, minus one
when the end is exclusive. -/
def adjustedEnd (f : NumericField) (d : NumRangeData) :
    Except Err Int :=
  match d.stop with
  | none => pure (2 ^ f.bits - 1)
  | some e0 => do
    let e1 ← prepare_number f e0
    pure (if d.endexcl then to_sortable f.bits f.signed e1 - 1
          else to_sortable f.bits f.signed e1)

/-- The constant-score wrapping step of the claimed pipeline. -/
def csWrap (d : NumRangeData) (q : Q) : Q :=
  if d.constantscore then Q.constantScoreQ q d.boost else q

/-- The per-range part of the claimed behaviour of
`NumericRange.simplify`, as amended: with a nonzero `shift_step` an
empty adjusted range yields `NullQuery` and otherwise the tiered
sub-ranges are emitted through `tierSubquery`; with `shift_step = 0` the
single (possibly inverted, never-matching) full-precision range is
emitted; multiple subqueries are combined with `Or` and the result is
wrapped in a constant-score query when `constantscore` is set. -/
def numericSimplifyClaimCore (f : NumericField) (d : NumRangeData)
    (s e : Int) : Except Err Q :=
  if f.shift_step ≠ 0 ∧ e < s then
    pure Q.nullQ
  else do
    let tiers := if f.shift_step ≠ 0 then splitRanges f.bits f.shift_step 0 s e
                 else [(s, e, 0)]
    let subs ← tiers.mapM (tierSubquery f d.fieldname)
    match subs with
    | [] => pure Q.nullQ
    | [q] => pure (csWrap d q)
    | qs => pure (csWrap d (Q.orQ qs d.boost))

/-- The claimed behaviour of `NumericRange.simplify`, as amended:
translate and adjust the bounds, then decompose and combine per
`numericSimplifyClaimCore`. -/
def numericSimplifyClaim (f : NumericField) (d : NumRangeData) :
    Except Err Q := do
  let s ← adjustedStart f d
  let e ← adjustedEnd f d
  numericSimplifyClaimCore f d s e

/-! ## Decidability helper -/

/-- Whether an embedded computation raised. -/
def isFailure {α : Type} : Except Err α → Bool
  | .error _ => true
  | .ok _ => false

/-- The tier shifts of a numeric field: `range(0, bits, shift_step)`
when `shift_step` is nonzero, the single full-precision shift
otherwise. -/
def tierShifts (f : NumericField) : List Nat :=
  if f.shift_step ≠ 0 then pyRange 0 f.bits f.shift_step else [0]

/-- Python `max` of a nonempty int list (0 as a placeholder on the empty
list, which `pyMax` rejects). -/
def listMaxD : List Int → Int
  | [] => 0
  | x :: xs => xs.foldl max x

instance {ε α : Type} [DecidableEq ε] [DecidableEq α] :
    DecidableEq (Except ε α) := fun a b =>
  match a, b with
  | .ok x, .ok y =>
    if h : x = y then .isTrue (by rw [h])
    else .isFalse (fun hh => h (Except.ok.inj hh))
  | .error x, .error y =>
    if h : x = y then .isTrue (by rw [h])
    else .isFalse (fun hh => h (Except.error.inj hh))
  | .ok _, .error _ => .isFalse (fun hh => Except.noConfusion hh)
  | .error _, .ok _ => .isFalse (fun hh => Except.noConfusion hh)

/-! ## Claim theorems -/

/-- C1.  The claim states that a doc-list encode/decode round trip
preserves the per-posting character ranges regardless of host
endianness.  The code contradicts it: `encode_ranges` writes the delta
array in native order with no byteswap, while `decode_ranges` byteswaps
exactly when the host IS little-endian, so on a little-endian host the
ranges `[(0, 256)]` (typecode `H`, payload bytes `00 00 00 01`) decode
as `[(0, 1)]`. -/
theorem c1_ranges_decode_byteswap_bug :
    encode_ranges true [((0 : Int), 256)] = .ok [72, 0, 0, 0, 1] ∧
    decode_ranges true [72, 0, 0, 0, 1] 0 5 = .ok [((0 : Int), 1)] ∧
    [((0 : Int), 1)] ≠ [((0 : Int), 256)] ∧
    decode_ranges false [72, 0, 0, 1, 0] 0 5 = .ok [((0 : Int), 256)] := by
  refine ⟨by decide, by decide, by decide, by decide⟩

/-- C2.  The claim states that `TempfilePool.finish` writes the merged
union of the remaining in-memory postings and all spilled runs.  The
code contradicts it: when both in-memory postings and runs exist, the
posting iterator is built from the runs alone, so the in-memory posting
for term `b"b"` is dropped — the emitted term table only contains the
run's term `b"a"` although the sorted union holds both. -/
theorem c2_finish_drops_in_memory_postings :
    finish_postiter ⟨[], [⟨0, [98], 1, 1, []⟩], [[⟨0, [97], 0, 1, []⟩]]⟩ =
      [⟨0, [97], 0, 1, []⟩] ∧
    sortPosts ([⟨0, [98], 1, 1, []⟩] ++ [[⟨0, [97], 0, 1, []⟩]].flatten) =
      [⟨0, [97], 0, 1, []⟩, ⟨0, [98], 1, 1, []⟩] ∧
    (pool_finish 2 [0] ⟨[], [⟨0, [98], 1, 1, []⟩], [[⟨0, [97], 0, 1, []⟩]]⟩).2 =
      .ok ([((0, [97]), 1, 0, 1)], [(0, [], 0)]) := by
  refine ⟨by decide, by decide, by rfl⟩

/-- C3.  The claim states that `write_postings` raises a fatal
out-of-order error whenever the incoming `(field, term)` pair is
strictly less than the current one.  The code contradicts it: the
new-term test is `fieldnum > current_fieldnum or text > current_text`,
so the pair `(1, b"c")` arriving after `(2, b"b")` — strictly smaller in
tuple order — satisfies `text > current_text` and is silently treated
as a new term: no error is raised and two term-table entries are
recorded in non-sorted order. -/
theorem c3_out_of_order_pair_not_rejected :
    write_postings (fun _ _ => 0)
        [⟨2, [98], 0, 1, []⟩, ⟨1, [99], 1, 1, []⟩] =
      .ok ([((2, [98]), 1, 0, 1), ((1, [99]), 1, 1, 1)],
           [(0, [], 0), (1, [], 0)]) := by
  rfl

/-- C9 counterexample.  The claim states that encoding doc-ids that are
not strictly increasing always fails; but a doc-ids-only sequence of at
most 32 postings takes the minimal fast path, which performs no
ordering check: the out-of-order ids `[5, 3]` encode successfully. -/
theorem c9_counterexample_fast_path_accepts_out_of_order :
    doclist_to_bytes true ⟨false, false, false, false, false⟩
        [⟨5, none, none, none, none, none, none⟩,
         ⟨3, none, none, none, none, none, none⟩] = .ok [129, 5, 3] := by
  decide

/-- An empty range yields no tiers. -/
theorem splitRanges_of_lt (bits step shift : Nat) (lo hi : Int)
    (h : hi < lo) : splitRanges bits step shift lo hi = [] := by
  unfold splitRanges
  simp [h]

/-- `numericSimplify` factors through the adjusted bounds. -/
theorem numericSimplify_as_adjusted (f : NumericField) (d : NumRangeData) :
    numericSimplify f d = (do
      let s ← adjustedStart f d
      let e ← adjustedEnd f d
      numericSimplifyCore f d s e) := by
  unfold numericSimplify adjustedStart adjustedEnd
  cases d.start <;> cases d.stop <;>
    simp only [bind_assoc, pure_bind]

/-- C5 counterexample.  The claim states that an empty adjusted range
(here `startexcl` pushes the start past the end) yields `NullQuery`; but
on a field with `shift_step = 0` the code uses the single raw
`(start, end, 0)` range without splitting, and emits a constant-score
`TermRange` between the inverted keys instead. -/
theorem c5_counterexample_empty_range_not_null :
    numericSimplify ⟨8, false, 0, 1⟩ ⟨"n", some 4, some 4, true, false, 1, true⟩ =
      .ok (Q.constantScoreQ
        (Q.termRangeQ "n" (.bytes [0, 5]) (.bytes [0, 4]) false false 1 true) 1) ∧
    Q.constantScoreQ
        (Q.termRangeQ "n" (.bytes [0, 5]) (.bytes [0, 4]) false false 1 true) 1 ≠
      Q.nullQ := by
  refine ⟨by rfl, fun h => Q.noConfusion h⟩

/-- C5 (amended).  `NumericRange.simplify` translates the bounds to
sortable space (missing start 0, missing end `2^bits - 1`, `+1`/`-1` for
exclusive ends), splits `[start, end]` into tiered sub-ranges when
`shift_step` is nonzero, emits a `Term` on `sortable_to_bytes(lo, shift)`
when `lo == hi` and a `TermRange` between the shifted keys otherwise,
combines several subqueries with `Or` and wraps the result in
`ConstantScoreQuery` when `constantscore` is set; an empty adjusted
range yields `NullQuery` when `shift_step` is nonzero, while with
`shift_step = 0` it yields the never-matching `TermRange` between the
inverted keys. -/
theorem c5_simplify_matches_amended_claim (f : NumericField)
    (d : NumRangeData) :
    numericSimplify f d = numericSimplifyClaim f d := by
  rw [numericSimplify_as_adjusted]
  unfold numericSimplifyClaim
  cases hA : adjustedStart f d with
  | error e => rfl
  | ok s =>
    cases hB : adjustedEnd f d with
    | error e => rfl
    | ok e =>
      show numericSimplifyCore f d s e = numericSimplifyClaimCore f d s e
      unfold numericSimplifyCore numericSimplifyClaimCore
      by_cases hc : f.shift_step ≠ 0 ∧ e < s
      · rw [if_pos hc, if_pos hc.1, splitRanges_of_lt _ _ _ _ _ hc.2]
        rfl
      · rw [if_neg hc]
        cases hm : (if f.shift_step ≠ 0 then splitRanges f.bits f.shift_step 0 s e
                    else [(s, e, 0)]).mapM (tierSubquery f d.fieldname) with
        | error e2 => simp only [hm]; rfl
        | ok l =>
          simp only [hm]
          cases l with
          | nil => rfl
          | cons a t => cases t with
            | nil => rfl
            | cons b r => rfl

/-- C8 counterexample.  The claim states that for every Range query,
`normalize` maps a single-point range with both ends inclusive to a
`Term` query.  The base `Range.normalize` (ranges.py lines 145-156) has
no such case: it returns the range itself; only `TermRange.normalize`
produces the `Term`. -/
theorem c8_counterexample_base_range_point_not_term :
    rangeNormalize "f" (.str "a") (.str "a") false false 1 true =
      Q.rangeQ "f" (.str "a") (.str "a") false false 1 true ∧
    (∀ t b, Q.rangeQ "f" (.str "a") (.str "a") false false 1 true ≠
      Q.termQ "f" t b) := by
  refine ⟨by rfl, fun t b h => Q.noConfusion h⟩

/-- C8 (amended).  `Range.normalize` maps an unbounded range (start
empty or missing, end missing or the maximal character) to `Every` and
a single-point range with either end exclusive to `NullQuery`, and
otherwise returns the range unchanged; `TermRange.normalize` handles
the same two cases and additionally maps an inclusive single-point
range to a `Term` query on that point, rebuilding the `TermRange`
otherwise. -/
theorem c8_normalize_cases (fn : String) (start stop : BV) (se ee : Bool)
    (b : Rat) (cs : Bool) :
    ((startEmptyish start && endOpenish stop) = true →
      rangeNormalize fn start stop se ee b cs = .everyQ (some fn) b ∧
      termRangeNormalize fn start stop se ee b cs = .everyQ (some fn) b) ∧
    ((startEmptyish start && endOpenish stop) = false → start = stop →
      (se || ee) = true →
      rangeNormalize fn start stop se ee b cs = .nullQ ∧
      termRangeNormalize fn start stop se ee b cs = .nullQ) ∧
    ((startEmptyish start && endOpenish stop) = false → start = stop →
      (se || ee) = false →
      rangeNormalize fn start stop se ee b cs =
        .rangeQ fn start stop se ee b cs ∧
      termRangeNormalize fn start stop se ee b cs = .termQ fn start b) ∧
    ((startEmptyish start && endOpenish stop) = false → start ≠ stop →
      rangeNormalize fn start stop se ee b cs =
        .rangeQ fn start stop se ee b cs ∧
      termRangeNormalize fn start stop se ee b cs =
        .termRangeQ fn start stop se ee b cs) := by
  refine ⟨fun h1 => ?_, fun h1 h2 h3 => ?_, fun h1 h2 h3 => ?_,
          fun h1 h2 => ?_⟩
  · simp [rangeNormalize, termRangeNormalize, h1]
  · subst h2
    simp [rangeNormalize, termRangeNormalize, h1, h3]
  · subst h2
    simp [rangeNormalize, termRangeNormalize, h1, h3]
  · simp [rangeNormalize, termRangeNormalize, h1, h2]

/-- C8 witness: the amended theorem evaluated on a concrete exclusive
single-point `TermRange`, which normalizes to `NullQuery`. -/
theorem c8_normalize_cases_witness :
    termRangeNormalize "f" (.str "a") (.str "a") true false 1 true =
      Q.nullQ :=
  ((c8_normalize_cases "f" (.str "a") (.str "a") true false 1 true).2.1
    (by decide) (by decide) (by decide)).2

/-- The ascending-order check fails on any stream that is not a strict
chain above its seed. -/
theorem checkAscending_fails (ids : List Int) (p : Int)
    (h : ¬ List.Chain (· < ·) p ids) :
    isFailure (checkAscending p ids) = true := by
  induction ids generalizing p with
  | nil => exact absurd List.Chain.nil h
  | cons d rest ih =>
    rw [List.chain_cons] at h
    unfold checkAscending
    by_cases hd : d ≤ p
    · simp [hd, isFailure]
    · rw [if_neg hd]
      exact ih d (fun hc => h ⟨by omega, hc⟩)

/-- `encode_docids` fails on any nonempty id list that contains a
negative id or is not strictly increasing. -/
theorem encode_docids_fails (hl : Bool) (ids : List Int)
    (hne : ids ≠ [])
    (hbad : (∃ d ∈ ids, d < 0) ∨ ¬ List.Chain' (· < ·) ids) :
    isFailure (encode_docids hl ids) = true := by
  unfold encode_docids
  rw [if_neg hne]
  by_cases hneg : ids.any (· < 0)
  · simp [hneg, isFailure]
  · have hall : ∀ d ∈ ids, 0 ≤ d := by
      intro d hd
      by_contra hlt
      exact hneg (List.any_eq_true.mpr ⟨d, hd, by simpa using by omega⟩)
    have hchain : ¬ List.Chain' (· < ·) ids := by
      rcases hbad with ⟨d, hd, hdneg⟩ | h
      · exact absurd (hall d hd) (by omega)
      · exact h
    have hfail : isFailure (checkAscending (-1) ids) = true := by
      apply checkAscending_fails
      cases ids with
      | nil => exact absurd rfl hne
      | cons a rest =>
        rw [List.chain_cons]
        intro ⟨_, hc⟩
        exact hchain hc
    rcases hcc : checkAscending (-1) ids with e | u
    · rw [if_neg ?hn]
      case hn => simp [hneg]
      rfl
    · rw [hcc] at hfail
      simp [isFailure] at hfail

/-- C9 (amended).  Encoding an empty doc-list always fails with the
empty-block error; and when the full block encoding is used (the format
has features or the block has more than 32 postings), negative or
non-strictly-increasing doc-ids always make the encode fail.  (The
minimal ≤32-posting doc-ids-only fast path performs no such check — see
the counterexample.) -/
theorem c9_encode_error_conditions_amended (hl : Bool) (fmt : Format)
    (posts : List RawPost) :
    (posts = [] → doclist_to_bytes hl fmt posts =
      .error (.valueError "Empty document postings list")) ∧
    (posts ≠ [] → fmt.only_docids = false ∨ 32 < posts.length →
      ((∃ p ∈ posts, p.docid < 0) ∨
        ¬ List.Chain' (· < ·) (posts.map (·.docid))) →
      isFailure (doclist_to_bytes hl fmt posts) = true) := by
  constructor
  · intro h
    simp [doclist_to_bytes, h]
  · intro hne hfull hbad
    have hcond : ¬ (USE_MIN && fmt.only_docids && posts.length ≤ 32) = true := by
      rcases hfull with h | h <;> simp [USE_MIN, h]
    rw [doclist_to_bytes, if_neg hne, if_neg hcond]
    have hids : isFailure (encode_docids hl (posts.map (·.docid))) = true := by
      apply encode_docids_fails
      · simp [hne]
      · rcases hbad with ⟨p, hp, hneg⟩ | h
        · exact Or.inl ⟨p.docid, List.mem_map_of_mem _ hp, hneg⟩
        · exact Or.inr h
    rcases he : encode_docids hl (posts.map (·.docid)) with e | pr
    · rw [full_doclist_bytes, he]
      rfl
    · rw [he] at hids
      simp [isFailure] at hids

/-- C9 witness: the amended theorem at concrete inputs — an empty post
list fails with the empty-block error, and a 33-posting block with a
repeated doc-id fails in the full encoding. -/
theorem c9_encode_error_conditions_amended_witness :
    doclist_to_bytes true ⟨false, false, false, false, false⟩ [] =
      .error (.valueError "Empty document postings list") ∧
    isFailure (doclist_to_bytes true ⟨false, false, false, false, false⟩
      (List.replicate 33 ⟨7, none, none, none, none, none, none⟩)) = true := by
  constructor
  · exact (c9_encode_error_conditions_amended true
      ⟨false, false, false, false, false⟩ []).1 rfl
  · exact (c9_encode_error_conditions_amended true
      ⟨false, false, false, false, false⟩
      (List.replicate 33 ⟨7, none, none, none, none, none, none⟩)).2
      (by decide) (by decide) (Or.inr (by
        intro hch
        rw [List.map_replicate] at hch
        have h33 : List.replicate 33 (7 : Int) =
            7 :: 7 :: List.replicate 31 7 := rfl
        rw [h33] at hch
        exact absurd (List.chain'_cons.mp hch).1 (by omega)))

/-- `mapM` over elementwise-successful computations is the successful
map. -/
theorem mapM_ok {α β : Type} (f : α → Except Err β) (g : α → β)
    (l : List α) (h : ∀ x ∈ l, f x = .ok (g x)) :
    l.mapM f = .ok (l.map g) := by
  induction l with
  | nil => rfl
  | cons a t ih =>
    rw [List.mapM_cons, h a (by simp), ih (fun x hx => h x (by simp [hx]))]
    rfl

/-- Python `>>` agrees with the natural-number shift on non-negative
values. -/
theorem intShr_ofNat (m k : Nat) :
    intShr (m : Int) k = ((m >>> k : Nat) : Int) := by
  unfold intShr
  rw [Nat.shiftRight_eq_div_pow, Int.ofNat_fdiv]
  push_cast
  rfl

/-- An in-range value maps into `[0, 2^bits)` in sortable space. -/
theorem to_sortable_bounds (f : NumericField) (v : Int)
    (hv : f.minValue ≤ v ∧ v ≤ f.maxValue) :
    0 ≤ to_sortable f.bits f.signed v ∧
    to_sortable f.bits f.signed v < 2 ^ f.bits := by
  obtain ⟨h1, h2⟩ := hv
  simp only [NumericField.minValue, NumericField.maxValue,
    from_sortable] at h1 h2
  unfold to_sortable
  cases hs : f.signed <;> simp [hs] at h1 h2 ⊢ <;> omega

/-- `prepare_number` accepts in-range values unchanged. -/
theorem prepare_number_ok (f : NumericField) (v : Int)
    (hv : f.minValue ≤ v ∧ v ≤ f.maxValue) :
    prepare_number f v = .ok v := by
  unfold prepare_number
  rw [if_neg (by omega)]

/-- `sortable_to_bytes` on an in-range sortable value: the shift byte
followed by the big-endian fixed-width encoding of the shifted value. -/
theorem sortable_to_bytes_ok (f : NumericField) (x : Int) (sh : Nat)
    (hbits : f.bits = 8 ∨ f.bits = 16 ∨ f.bits = 32 ∨ f.bits = 64)
    (hx : 0 ≤ x ∧ x < 2 ^ f.bits) (hsh : sh ≤ 255) :
    sortable_to_bytes f x sh =
      .ok (sh :: packBE (f.bits / 8) (x.toNat >>> sh)) := by
  have h8 : 8 * (f.bits / 8) = f.bits := by
    rcases hbits with h | h | h | h <;> omega
  have hy : (if sh ≠ 0 then intShr x sh else x) =
      ((x.toNat >>> sh : Nat) : Int) := by
    by_cases hz : sh = 0
    · simp [hz, Int.toNat_of_nonneg hx.1]
    · rw [if_pos hz]
      conv_lhs => rw [← Int.toNat_of_nonneg hx.1]
      exact intShr_ofNat x.toNat sh
  have hlt : (x.toNat >>> sh : Nat) < 2 ^ f.bits := by
    rw [Nat.shiftRight_eq_div_pow]
    have hxt : ((x.toNat : Int)) = x := Int.toNat_of_nonneg hx.1
    have hub : x.toNat < 2 ^ f.bits := by
      zify
      rw [hxt]
      exact hx.2
    calc x.toNat / 2 ^ sh ≤ x.toNat := Nat.div_le_self _ _
    _ < 2 ^ f.bits := hub
  have hpack : packBEChecked (f.bits / 8) (if sh ≠ 0 then intShr x sh else x) =
      .ok (packBE (f.bits / 8) (x.toNat >>> sh)) := by
    unfold packBEChecked
    rw [hy, if_pos ?cond]
    case cond =>
      refine ⟨by positivity, ?_⟩
      rw [h8]
      exact_mod_cast hlt
    simp
  unfold sortable_to_bytes
  rw [if_pos hsh, hpack]
  rfl

/-- `Numeric.to_bytes` on an in-range value. -/
theorem numeric_to_bytes_ok (f : NumericField) (v : Int) (sh : Nat)
    (hbits : f.bits = 8 ∨ f.bits = 16 ∨ f.bits = 32 ∨ f.bits = 64)
    (hv : f.minValue ≤ v ∧ v ≤ f.maxValue) (hsh : sh ≤ 255) :
    numeric_to_bytes f v sh =
      .ok (sh :: packBE (f.bits / 8)
        ((to_sortable f.bits f.signed v).toNat >>> sh)) := by
  unfold numeric_to_bytes
  rw [prepare_number_ok f v hv]
  show sortable_to_bytes f (to_sortable f.bits f.signed v) sh = _
  exact sortable_to_bytes_ok f _ sh hbits (to_sortable_bounds f v hv) hsh

/-- Elements of `range(0, b, s)` are below `b`. -/
theorem pyRange_mem_lt (b s x : Nat) (hs : s ≠ 0)
    (hx : x ∈ pyRange 0 b s) : x < b := by
  unfold pyRange at hx
  rw [if_neg hs] at hx
  simp at hx
  obtain ⟨i, hi, rfl⟩ := hx
  have hq : (b + s - 1) / s * s ≤ b + s - 1 := Nat.div_mul_le_self _ _
  have h2 : i * s + s ≤ (b + s - 1) / s * s := by
    have h3 := Nat.succ_le_of_lt hi
    calc i * s + s = (i + 1) * s := by ring
    _ ≤ (b + s - 1) / s * s := Nat.mul_le_mul_right _ h3
  omega

/-- C6.  For every in-range value given to an int `Numeric` field,
`index` emits exactly one posting per tier: for each shift in
`{0, shift_step, 2*shift_step, ...}` strictly below `bits` (just the
full-precision shift when `shift_step` is 0), a posting whose term
bytes are one byte holding the shift followed by the full-width
big-endian encoding of the sortable form right-shifted by the shift,
carrying length 1 and the field boost as weight. -/
theorem c6_numeric_index_one_posting_per_tier (f : NumericField)
    (v docid : Int)
    (hbits : f.bits = 8 ∨ f.bits = 16 ∨ f.bits = 32 ∨ f.bits = 64)
    (hv : f.minValue ≤ v ∧ v ≤ f.maxValue) :
    numericIndex f v docid =
      .ok (1, (tierShifts f).map (fun sh =>
        ⟨docid,
         some (sh :: packBE (f.bits / 8)
           ((to_sortable f.bits f.signed v).toNat >>> sh)),
         some 1, some f.field_boost, none, none, none⟩)) ∧
    (f.shift_step ≠ 0 → tierShifts f = pyRange 0 f.bits f.shift_step) ∧
    (f.shift_step = 0 → tierShifts f = [0]) := by
  refine ⟨?_, fun h => by simp [tierShifts, h], fun h => by simp [tierShifts, h]⟩
  unfold numericIndex tierShifts
  by_cases hz : f.shift_step ≠ 0
  · rw [if_pos hz, if_pos hz]
    rw [mapM_ok _ (fun sh => (RawPost.mk docid
        (some (sh :: packBE (f.bits / 8)
          ((to_sortable f.bits f.signed v).toNat >>> sh)))
        (some 1) (some f.field_boost) none none none)) _ ?hall]
    case hall =>
      intro sh hsh
      have hb255 : f.bits ≤ 64 := by rcases hbits with h | h | h | h <;> omega
      have hlt : sh < f.bits := pyRange_mem_lt f.bits f.shift_step sh hz hsh
      rw [numeric_to_bytes_ok f v sh hbits hv (by omega)]
      rfl
    rfl
  · rw [if_neg hz, if_neg hz]
    rw [numeric_to_bytes_ok f v 0 hbits hv (by omega)]
    rfl

/-- C6 witness: an 8-bit unsigned field with `shift_step = 4` indexing
the value 3 into doc 7 yields exactly the two tier postings. -/
theorem c6_numeric_index_one_posting_per_tier_witness :
    numericIndex ⟨8, false, 4, 1⟩ 3 7 =
      .ok (1, [⟨7, some [0, 3], some 1, some 1, none, none, none⟩,
               ⟨7, some [4, 0], some 1, some 1, none, none, none⟩]) :=
  ((c6_numeric_index_one_posting_per_tier ⟨8, false, 4, 1⟩ 3 7
    (Or.inl rfl) (by decide)).1).trans (by rfl)

/-- Reduction of a bind over a successful computation. -/
theorem bindOk {α β : Type} (a : α) (k : α → Except Err β) :
    ((Except.ok a : Except Err α) >>= k) = k a := rfl

/-- A featureless format has a zero flags byte. -/
theorem make_flags_only_docids (fmt : Format)
    (h : fmt.only_docids = true) : make_flags fmt = 0 := by
  obtain ⟨l, w, p, r, y⟩ := fmt
  cases l <;> cases w <;> cases p <;> cases r <;> cases y <;>
    simp_all [Format.only_docids, make_flags]

/-- A successfully packed doc header starts with its flags byte. -/
theorem pack_doc_header_head (flags count : Nat) (mn mx : Int) (tc : TC)
    (w : WTc) (a b c : Nat) (h : Bytes)
    (hh : pack_doc_header flags count mn mx tc w a b c = .ok h) :
    h.head? = some flags := by
  unfold pack_doc_header at hh
  by_cases hcond : flags ≤ 255 ∧ count ≤ 65535
  · rw [if_pos hcond] at hh
    rcases e1 : packI32LE mn with e | v1 <;> rw [e1] at hh
    · exact Except.noConfusion hh
    rcases e2 : packI32LE mx with e | v2 <;> rw [e2] at hh
    · exact Except.noConfusion hh
    rcases e3 : packI32LE (a : Int) with e | v3 <;> rw [e3] at hh
    · exact Except.noConfusion hh
    rcases e4 : packI32LE (b : Int) with e | v4 <;> rw [e4] at hh
    · exact Except.noConfusion hh
    rcases e5 : packI32LE (c : Int) with e | v5 <;> rw [e5] at hh
    · exact Except.noConfusion hh
    obtain rfl := Except.ok.inj hh
    rfl
  · rw [if_neg hcond] at hh
    exact Except.noConfusion hh

/-- A successfully encoded full block starts with the format's flags
byte. -/
theorem full_doclist_bytes_head (hl : Bool) (fmt : Format)
    (posts : List RawPost) (bs : Bytes)
    (hok : full_doclist_bytes hl fmt posts = .ok bs) :
    bs.head? = some (make_flags fmt) := by
  unfold full_doclist_bytes at hok
  rcases e1 : encode_docids hl (posts.map (·.docid)) with e | pr <;>
    rw [e1] at hok
  · exact Except.noConfusion hok
  obtain ⟨tc, idb⟩ := pr
  rcases e2 : extract_lengths fmt posts with e | tr <;> rw [e2] at hok
  · exact Except.noConfusion hok
  obtain ⟨mn, mx, lb⟩ := tr
  rcases e3 : extract_weights hl fmt posts with e | wp <;> rw [e3] at hok
  · exact Except.noConfusion hok
  obtain ⟨wc, wb⟩ := wp
  rcases e4 : extract_features hl fmt posts with e | fp <;> rw [e4] at hok
  · exact Except.noConfusion hok
  obtain ⟨pb, rb, yb⟩ := fp
  simp only [bindOk] at hok
  rcases e5 : pack_doc_header (make_flags fmt) posts.length mn mx tc wc
      pb.length rb.length yb.length with e | hdr <;> rw [e5] at hok
  · exact Except.noConfusion hok
  simp only [bindOk] at hok
  obtain rfl := Except.ok.inj hok
  have hhd := pack_doc_header_head _ _ _ _ _ _ _ _ _ _ e5
  have hmem : make_flags fmt ∈ hdr.head? := by
    rw [hhd]; rfl
  have h2 := List.mem_head?_append_of_mem_head?
    (t := idb ++ lb ++ wb ++ pb ++ rb ++ yb) hmem
  simpa [List.append_assoc] using h2

/-- The max fold bounds the seed and every element. -/
theorem foldl_max_ge (xs : List Int) (x : Int) :
    x ≤ xs.foldl max x ∧ ∀ d ∈ xs, d ≤ xs.foldl max x := by
  induction xs generalizing x with
  | nil => simp
  | cons a t ih =>
    obtain ⟨h1, h2⟩ := ih (max x a)
    refine ⟨le_trans (le_max_left x a) h1, ?_⟩
    intro d hd
    rcases List.mem_cons.mp hd with rfl | hd2
    · exact le_trans (le_max_right x d) h1
    · exact h2 d hd2

/-- Every element is at most the list maximum. -/
theorem le_listMaxD (l : List Int) (d : Int) (hd : d ∈ l) :
    d ≤ listMaxD l := by
  cases l with
  | nil => cases hd
  | cons x xs =>
    rcases List.mem_cons.mp hd with rfl | h
    · exact (foldl_max_ge xs d).1
    · exact (foldl_max_ge xs x).2 d h

/-- Typecode capacities fit their byte widths. -/
theorem tc_maxVal_lt (tc : TC) : tc.maxVal < 2 ^ (8 * tc.itemsize) := by
  cases tc <;> decide

/-- A value below the list maximum fits the typecode chosen for that
maximum. -/
theorem min_array_code_range (m d : Int) (h0 : 0 ≤ d) (hd : d ≤ m)
    (h63 : d < 2 ^ 63) :
    (min_array_code m).minVal ≤ d ∧ d ≤ (min_array_code m).maxVal := by
  unfold min_array_code TC.minVal TC.maxVal
  split_ifs <;> simp <;> omega

/-- `struct.pack` of an in-range non-negative value is its little-endian
byte string. -/
theorem structPackLE_ok (tc : TC) (d : Int)
    (h : tc.minVal ≤ d ∧ d ≤ tc.maxVal) (h0 : 0 ≤ d) :
    structPackLE tc d = .ok (packLE tc.itemsize d.toNat) := by
  unfold structPackLE
  rw [if_pos h]
  have hlt : d < 2 ^ (8 * tc.itemsize) := lt_of_le_of_lt h.2 (tc_maxVal_lt tc)
  unfold TC.rep
  rw [Int.emod_eq_of_lt h0 (by exact_mod_cast hlt)]

/-- Packing a list of in-range values concatenates the per-value
little-endian byte strings. -/
theorem structPackListLE_ok (tc : TC) (ids : List Int)
    (h : ∀ d ∈ ids, 0 ≤ d ∧ tc.minVal ≤ d ∧ d ≤ tc.maxVal) :
    structPackListLE tc ids =
      .ok (ids.flatMap (fun d => packLE tc.itemsize d.toNat)) := by
  unfold structPackListLE
  rw [mapM_ok _ (fun d => packLE tc.itemsize d.toNat) _ (fun d hd =>
    structPackLE_ok tc d (h d hd).2 (h d hd).1)]
  rw [List.flatMap_def]
  rfl

/-- The fast-path bytes: flags byte with the high bit, typecode number
and count-1, then the raw ids packed little-endian. -/
theorem minimal_doclist_bytes_ok (posts : List RawPost) (hne : posts ≠ [])
    (hrange : ∀ p ∈ posts, 0 ≤ p.docid ∧ p.docid < 2 ^ 63) :
    minimal_doclist_bytes posts =
      .ok ((128 +
        (min_array_code (listMaxD (posts.map (·.docid)))).typenum * 32 +
        (posts.length - 1)) ::
        (posts.map (·.docid)).flatMap (fun d =>
          packLE (min_array_code (listMaxD (posts.map (·.docid)))).itemsize
            d.toNat)) := by
  unfold minimal_doclist_bytes
  have hmax : pyMax (posts.map (·.docid)) =
      .ok (listMaxD (posts.map (·.docid))) := by
    cases hp : posts.map (·.docid) with
    | nil => exact absurd (List.map_eq_nil_iff.mp hp) hne
    | cons x xs => rfl
  rw [hmax]
  have hall : ∀ d ∈ posts.map (·.docid), 0 ≤ d ∧
      (min_array_code (listMaxD (posts.map (·.docid)))).minVal ≤ d ∧
      d ≤ (min_array_code (listMaxD (posts.map (·.docid)))).maxVal := by
    intro d hd
    obtain ⟨p, hpmem, rfl⟩ := List.mem_map.mp hd
    obtain ⟨h0, h63⟩ := hrange p hpmem
    exact ⟨h0, min_array_code_range _ _ h0 (le_listMaxD _ _ hd) h63⟩
  simp only [bindOk]
  rw [structPackListLE_ok _ _ hall]
  simp only [bindOk, List.length_map]

/-- C4.  For a doc-ids-only format: a block of 1 to 32 postings is
emitted in the minimal fast-path encoding — one flags byte holding the
high bit, the two-bit index of the smallest array typecode for the
largest id (from `{B, H, I, q}`, sizes u8/u16/u32/64-bit) and the
five-bit count-1, followed by the raw (non-delta) doc-ids packed
little-endian in that typecode — while 33 or more postings go through
the full block encoding, whose first byte is the (high-bit-clear, here
zero) feature flags byte. -/
theorem c4_fast_path_encoding (hl : Bool) (fmt : Format)
    (posts : List RawPost)
    (hfmt : fmt.only_docids = true) (hne : posts ≠ [])
    (hrange : ∀ p ∈ posts, 0 ≤ p.docid ∧ p.docid < 2 ^ 63) :
    (posts.length ≤ 32 →
      doclist_to_bytes hl fmt posts =
        .ok ((128 +
          (min_array_code (listMaxD (posts.map (·.docid)))).typenum * 32 +
          (posts.length - 1)) ::
          (posts.map (·.docid)).flatMap (fun d =>
            packLE (min_array_code (listMaxD (posts.map (·.docid)))).itemsize
              d.toNat))) ∧
    (32 < posts.length →
      doclist_to_bytes hl fmt posts = full_doclist_bytes hl fmt posts ∧
      ∀ bs, full_doclist_bytes hl fmt posts = .ok bs →
        bs.head? = some 0) := by
  constructor
  · intro hlen
    rw [doclist_to_bytes, if_neg hne, if_pos (by simp [USE_MIN, hfmt, hlen])]
    exact minimal_doclist_bytes_ok posts hne hrange
  · intro hlen
    refine ⟨?_, ?_⟩
    · rw [doclist_to_bytes, if_neg hne, if_neg (by simp [USE_MIN, hfmt]; omega)]
    · intro bs hbs
      rw [← make_flags_only_docids fmt hfmt]
      exact full_doclist_bytes_head hl fmt posts bs hbs

/-- C4 witness: two postings with ids 0 and 300 pack as one flags byte
(high bit, typecode H, count 2) and the two ids as little-endian u16. -/
theorem c4_fast_path_encoding_witness :
    doclist_to_bytes true ⟨false, false, false, false, false⟩
      [⟨0, none, none, none, none, none, none⟩,
       ⟨300, none, none, none, none, none, none⟩] =
      .ok [161, 0, 0, 44, 1] := by
  have h := (c4_fast_path_encoding true ⟨false, false, false, false, false⟩
    [⟨0, none, none, none, none, none, none⟩,
     ⟨300, none, none, none, none, none, none⟩]
    rfl (by decide) (by
      intro p hp
      rcases List.mem_cons.mp hp with rfl | hp2
      · exact ⟨by decide, by decide⟩
      · rcases List.mem_cons.mp hp2 with rfl | hp3
        · exact ⟨by decide, by decide⟩
        · cases hp3)).1 (by decide)
  exact h.trans (by rfl)

end Whoosh
namespace Whoosh

theorem packLE_length (k x : Nat) : (packLE k x).length = k := by
  induction k generalizing x with
  | zero => rfl
  | succ k ih => simp [packLE, ih]

theorem natOfLE_packLE (k x : Nat) (h : x < 2 ^ (8 * k)) :
    natOfLE (packLE k x) = x := by
  induction k generalizing x with
  | zero =>
    have : x = 0 := by simpa using h
    simp [this, packLE, natOfLE]
  | succ k ih =>
    have hdiv : x / 256 < 2 ^ (8 * k) := by
      have h2 : x < 256 * 2 ^ (8 * k) := by
        have : 8 * (k + 1) = 8 * k + 8 := by ring
        rw [this, pow_add] at h
        calc x < 2 ^ (8 * k) * 2 ^ 8 := h
        _ = 256 * 2 ^ (8 * k) := by ring
      omega
    simp only [packLE, natOfLE]
    rw [ih _ hdiv]
    omega

theorem tc_val_toNat (tc : TC) (d : Int) (h0 : 0 ≤ d)
    (hm : d ≤ tc.maxVal) : tc.val d.toNat = d := by
  cases tc <;> simp [TC.val, TC.maxVal] at hm ⊢ <;> omega
end Whoosh
namespace Whoosh
theorem readItems_flatMap (tc : TC) (ids : List Int)
    (h : ∀ d ∈ ids, 0 ≤ d ∧ d ≤ tc.maxVal) :
    readItems (fun c => tc.val (natOfLE c)) tc.itemsize ids.length
      (ids.flatMap (fun d => packLE tc.itemsize d.toNat)) = ids := by
  induction ids with
  | nil => rfl
  | cons d rest ih =>
    obtain ⟨h0, hm⟩ := h d (by simp)
    have hlen : (packLE tc.itemsize d.toNat).length = tc.itemsize :=
      packLE_length _ _
    have hnat : d.toNat < 2 ^ (8 * tc.itemsize) := by
      have hlt := lt_of_le_of_lt hm (tc_maxVal_lt tc)
      have hcast : ((2 : Int) ^ (8 * tc.itemsize)) =
          ((2 ^ (8 * tc.itemsize) : Nat) : Int) := by push_cast; rfl
      rw [hcast] at hlt
      omega
    simp only [List.flatMap_cons, List.length_cons, readItems]
    rw [List.take_left' hlen, List.drop_left' hlen]
    rw [natOfLE_packLE _ _ hnat, tc_val_toNat tc d h0 hm]
    rw [ih (fun x hx => h x (by simp [hx]))]
end Whoosh
namespace Whoosh
theorem flatMap_const_length {α : Type} (f : α → List Nat) (k : Nat)
    (l : List α) (h : ∀ x ∈ l, (f x).length = k) :
    (l.flatMap f).length = l.length * k := by
  induction l with
  | nil => simp
  | cons a t ih =>
    simp only [List.flatMap_cons, List.length_append, List.length_cons]
    rw [h a (by simp), ih (fun x hx => h x (by simp [hx]))]
    ring

theorem tcOfTypenum_typenum (tc : TC) : tcOfTypenum tc.typenum = tc := by
  cases tc <;> rfl

theorem tc_typenum_lt (tc : TC) : tc.typenum < 4 := by
  cases tc <;> decide

theorem minFlagFacts : ∀ t < 4, ∀ r < 32,
    ((128 + t * 32 + r) &&& 128 ≠ 0) ∧
    ((128 + t * 32 + r) &&& 96) >>> 5 = t ∧
    ((128 + t * 32 + r) &&& 31) = r := by decide

theorem minimal_reader_of_bytes (hl : Bool) (posts : List RawPost)
    (bs : Bytes)
    (hne : posts ≠ [])
    (hlen : posts.length ≤ 32)
    (hrange : ∀ p ∈ posts, 0 ≤ p.docid ∧ p.docid < 2 ^ 63)
    (hok : minimal_doclist_bytes posts = .ok bs) :
    doclist_reader hl bs 0 = .ok (.minimal (posts.map (·.docid)) []) := by
  have hb := (minimal_doclist_bytes_ok posts hne hrange).symm.trans hok
  obtain rfl := Except.ok.inj hb
  have hn1 : 1 ≤ posts.length := List.length_pos.mpr hne
  obtain ⟨hf1, hf2, hf3⟩ := minFlagFacts
    (min_array_code (listMaxD (posts.map (·.docid)))).typenum
    (tc_typenum_lt _) (posts.length - 1) (by omega)
  have hbody : ((posts.map (·.docid)).flatMap (fun d =>
      packLE (min_array_code (listMaxD (posts.map (·.docid)))).itemsize
        d.toNat)).length =
      (min_array_code (listMaxD (posts.map (·.docid)))).itemsize * posts.length := by
    rw [flatMap_const_length _ _ _ (fun x hx => packLE_length _ _)]
    rw [List.length_map, Nat.mul_comm]
  unfold doclist_reader
  rw [if_neg (by simp)]
  simp only [List.getD_cons_zero]
  rw [if_pos hf1]
  rw [hf2, tcOfTypenum_typenum, hf3]
  have hcount : posts.length - 1 + 1 = posts.length := by omega
  rw [hcount]
  have hun : structUnpackListLE
      (min_array_code (listMaxD (posts.map (·.docid)))) posts.length
      ((128 + (min_array_code (listMaxD (posts.map (·.docid)))).typenum * 32 +
        (posts.length - 1)) ::
        (posts.map (·.docid)).flatMap (fun d =>
          packLE (min_array_code (listMaxD (posts.map (·.docid)))).itemsize
            d.toNat)) 1 = .ok (posts.map (·.docid)) := by
    unfold structUnpackListLE
    rw [if_pos (by rw [List.length_cons, hbody]; omega)]
    simp only [List.drop_succ_cons, List.drop_zero]
    have := readItems_flatMap (min_array_code (listMaxD (posts.map (·.docid))))
      (posts.map (·.docid)) (fun d hd => by
        obtain ⟨p, hp, rfl⟩ := List.mem_map.mp hd
        obtain ⟨h0, h63⟩ := hrange p hp
        exact ⟨h0, (min_array_code_range _ _ h0 (le_listMaxD _ _ hd) h63).2⟩)
    rw [List.length_map] at this
    rw [this]
  rw [hun]
  rfl
end Whoosh
namespace Whoosh
theorem only_docids_fields (fmt : Format) (h : fmt.only_docids = true) :
    fmt.has_lengths = false ∧ fmt.has_weights = false ∧
    fmt.has_positions = false ∧ fmt.has_ranges = false ∧
    fmt.has_payloads = false := by
  obtain ⟨l, w, p, r, y⟩ := fmt
  simp only [Format.only_docids] at h
  simp only []
  cases l <;> cases w <;> cases p <;> cases r <;> cases y <;> simp_all

theorem extract_lengths_only (fmt : Format) (posts : List RawPost)
    (h1 : fmt.has_lengths = false) (h2 : fmt.has_weights = false) :
    extract_lengths fmt posts = .ok (1, 1, []) := by
  unfold extract_lengths
  rw [h1, h2]
  rfl

theorem extract_weights_only (hl : Bool) (fmt : Format)
    (posts : List RawPost) (h2 : fmt.has_weights = false) :
    extract_weights hl fmt posts = .ok (.zero, []) := by
  unfold extract_weights
  rw [h2]
  rfl

theorem extract_features_only (hl : Bool) (fmt : Format)
    (posts : List RawPost) (h3 : fmt.has_positions = false)
    (h4 : fmt.has_ranges = false) (h5 : fmt.has_payloads = false) :
    extract_features hl fmt posts = .ok ([], [], []) := by
  unfold extract_features
  rw [h3, h4, h5]
  rfl

theorem delta_encode_length (base : Int) (ids : List Int) :
    (delta_encode base ids).length = ids.length := by
  induction ids generalizing base with
  | nil => rfl
  | cons a t ih => simp [delta_encode, ih]

theorem tobytes_length (hl : Bool) (a : PyArray) :
    (a.tobytes hl).length = a.tc.itemsize * a.items.length := by
  unfold PyArray.tobytes
  rw [flatMap_const_length _ a.tc.itemsize _ (fun x hx => by
    cases hl <;> simp [packBE, packLE_length])]
  ring

theorem encode_docids_ok_length (hl : Bool) (ids : List Int) (tc : TC)
    (idb : Bytes) (he : encode_docids hl ids = .ok (tc, idb)) :
    idb.length = tc.itemsize * ids.length := by
  unfold encode_docids at he
  by_cases h0 : ids = []
  · rw [if_pos h0] at he
    exact Except.noConfusion he
  rw [if_neg h0] at he
  by_cases hneg : ids.any (· < 0)
  · rw [if_pos hneg] at he
    exact Except.noConfusion he
  rw [if_neg hneg] at he
  rcases hc : checkAscending (-1) ids with e | u <;> rw [hc] at he
  · exact Except.noConfusion he
  rcases hm : min_array (delta_encode 0 ids) with e | arr <;>
    simp only [bindOk] at he <;> rw [hm] at he
  · exact Except.noConfusion he
  simp only [bindOk] at he
  have harr : arr.items.length = ids.length := by
    unfold min_array at hm
    rcases hx : pyMax (delta_encode 0 ids) with e | m <;> rw [hx] at hm
    · exact Except.noConfusion hm
    simp only [bindOk] at hm
    unfold mkArray at hm
    by_cases hall : (delta_encode 0 ids).all
        (fun v => (min_array_code m).minVal ≤ v ∧ v ≤ (min_array_code m).maxVal)
    · rw [if_pos hall] at hm
      obtain rfl := (Except.ok.inj hm).symm
      simp [delta_encode_length]
    · rw [if_neg hall] at hm
      exact Except.noConfusion hm
  have hp := Except.ok.inj he
  have h1 : (if hl = true then arr else arr.byteswap).tc = tc :=
    congrArg Prod.fst hp
  have h2 : PyArray.tobytes hl (if hl = true then arr else arr.byteswap) = idb :=
    congrArg Prod.snd hp
  rw [← h2, tobytes_length]
  have hitems : (if hl = true then arr else arr.byteswap).items.length =
      ids.length := by
    cases hl
    · simp [PyArray.byteswap, harr]
    · simp [harr]
  rw [hitems, h1]
end Whoosh
namespace Whoosh
theorem tcFromAscii_ascii (tc : TC) : tcFromAscii tc.ascii = .ok tc := by
  cases tc <;> rfl

theorem full_doclist_bytes_shape (hl : Bool) (fmt : Format)
    (posts : List RawPost) (bs : Bytes)
    (hfmt : fmt.only_docids = true)
    (hok : full_doclist_bytes hl fmt posts = .ok bs) :
    ∃ tc idb, encode_docids hl (posts.map (·.docid)) = .ok (tc, idb) ∧
      posts.length ≤ 65535 ∧
      bs = 0 :: posts.length % 256 :: posts.length / 256 % 256 :: tc.ascii ::
        48 :: 1 :: 0 :: 0 :: 0 :: 1 :: 0 :: 0 :: 0 :: 0 :: 0 :: 0 :: 0 ::
        0 :: 0 :: 0 :: 0 :: 0 :: 0 :: 0 :: 0 :: idb := by
  obtain ⟨hx1, hx2, hx3, hx4, hx5⟩ := only_docids_fields fmt hfmt
  unfold full_doclist_bytes at hok
  rcases e1 : encode_docids hl (posts.map (·.docid)) with e | pr <;>
    rw [e1] at hok
  · exact Except.noConfusion hok
  obtain ⟨tc, idb⟩ := pr
  rw [extract_lengths_only fmt posts hx1 hx2,
      extract_weights_only hl fmt posts hx2,
      extract_features_only hl fmt posts hx3 hx4 hx5,
      make_flags_only_docids fmt hfmt] at hok
  simp only [bindOk, List.length_nil] at hok
  unfold pack_doc_header at hok
  by_cases hcnt : posts.length ≤ 65535
  · rw [if_pos (by exact ⟨by omega, hcnt⟩)] at hok
    rw [show packI32LE (1 : Int) = .ok [1, 0, 0, 0] from by decide,
        show packI32LE ((0 : Nat) : Int) = .ok [0, 0, 0, 0] from by decide]
      at hok
    simp only [bindOk] at hok
    obtain rfl := Except.ok.inj hok
    refine ⟨tc, idb, e1, hcnt, ?_⟩
    show _ = 0 :: (packLE 2 posts.length ++ tc.ascii :: 48 :: ([1,0,0,0] ++
      ([1,0,0,0] ++ ([0,0,0,0] ++ ([0,0,0,0] ++ [0,0,0,0]))))) ++ idb
    simp [WTc.ascii, List.append_assoc]
  · rw [if_neg (by intro hcon; exact hcnt hcon.2)] at hok
    exact Except.noConfusion hok
end Whoosh
namespace Whoosh
theorem decode_docids_ok (hl : Bool) (src : Bytes) (offset : Nat) (tc : TC)
    (count : Nat)
    (hdvd : (((src.drop offset).take (tc.itemsize * count)).length) % tc.itemsize = 0) :
    ∃ D, decode_docids hl src offset tc count =
      .ok (offset + tc.itemsize * count, D) := by
  unfold decode_docids arrayFrombytes
  simp only [hdvd, reduceIte]
  exact ⟨_, rfl⟩

theorem basicReader_fields (hl : Bool) (src : Bytes) (offset : Nat)
    (flags count : Nat) (tc : TC) (wtc : WTc) (mn mx : Int)
    (pl rl yl hEnd idsEnd : Nat) (D : List Int)
    (hup : unpack_doc_header src offset =
      .ok (flags, count, tc, wtc, mn, mx, pl, rl, yl, hEnd))
    (hdd : decode_docids hl src hEnd tc count = .ok (idsEnd, D)) :
    basicDocListReader hl src offset = .ok {
      src := src
      offset := offset
      count := count
      idsTc := tc
      wTc := wtc
      minLen := mn
      maxLen := mx
      ids := D
      hasLengths := flags &&& 1 ≠ 0
      hasWeights := flags &&& 2 ≠ 0
      hasPositions := flags &&& 4 ≠ 0
      hasRanges := flags &&& 8 ≠ 0
      hasPayloads := flags &&& 16 ≠ 0
      lensOffset := if flags &&& 1 ≠ 0 then some idsEnd else none
      weightsOffset := if flags &&& 1 ≠ 0 then idsEnd + count else idsEnd
      posesSize := pl
      rangesSize := rl
      paysSize := yl
      posesOffset := (if flags &&& 1 ≠ 0 then idsEnd + count else idsEnd) +
        wtc.itemsize * count
      rangesOffset := (if flags &&& 1 ≠ 0 then idsEnd + count else idsEnd) +
        wtc.itemsize * count + pl
      paysOffset := (if flags &&& 1 ≠ 0 then idsEnd + count else idsEnd) +
        wtc.itemsize * count + pl + rl
      endOffset := (if flags &&& 1 ≠ 0 then idsEnd + count else idsEnd) +
        wtc.itemsize * count + pl + rl + yl } := by
  unfold basicDocListReader
  rw [hup]
  simp only [bindOk]
  rw [hdd]
  simp only [bindOk]
end Whoosh
namespace Whoosh
theorem unpack_shape (n : Nat) (tc : TC) (idb : Bytes) (hn : n ≤ 65535) :
    unpack_doc_header (0 :: n % 256 :: n / 256 % 256 :: tc.ascii :: 48 :: 1 ::
      0 :: 0 :: 0 :: 1 :: 0 :: 0 :: 0 :: 0 :: 0 :: 0 :: 0 :: 0 :: 0 :: 0 ::
      0 :: 0 :: 0 :: 0 :: 0 :: idb) 0 =
      .ok (0, n, tc, .zero, 1, 1, 0, 0, 0, 25) := by
  have hcnt : natOfLE [n % 256, n / 256 % 256] = n := by
    simp only [natOfLE]
    omega
  unfold unpack_doc_header
  rw [if_pos (by simp)]
  simp only [List.drop_zero, List.drop_succ_cons, List.take_succ_cons,
    List.take_zero, List.getD_cons_zero, List.getD_cons_succ]
  rw [tcFromAscii_ascii]
  simp only [bindOk]
  rw [show wtcFromAscii 48 = .ok WTc.zero from rfl]
  simp only [bindOk]
  rw [show unpackI32LE [1, 0, 0, 0] = 1 from by decide,
      show unpackI32LE [0, 0, 0, 0] = 0 from by decide, hcnt]
  rfl
end Whoosh
namespace Whoosh
theorem full_reader_raw_aux (hl : Bool) (n : Nat) (tc : TC) (idb : Bytes)
    (hn : n ≤ 65535) (hidb : idb.length = tc.itemsize * n) :
    (doclist_reader hl (0 :: n % 256 :: n / 256 % 256 :: tc.ascii :: 48 ::
        1 :: 0 :: 0 :: 0 :: 1 :: 0 :: 0 :: 0 :: 0 :: 0 :: 0 :: 0 :: 0 ::
        0 :: 0 :: 0 :: 0 :: 0 :: 0 :: 0 :: idb) 0).map DocListR.raw_bytes =
      .ok (0 :: n % 256 :: n / 256 % 256 :: tc.ascii :: 48 ::
        1 :: 0 :: 0 :: 0 :: 1 :: 0 :: 0 :: 0 :: 0 :: 0 :: 0 :: 0 :: 0 ::
        0 :: 0 :: 0 :: 0 :: 0 :: 0 :: 0 :: idb) ∧
    (doclist_reader hl (0 :: n % 256 :: n / 256 % 256 :: tc.ascii :: 48 ::
        1 :: 0 :: 0 :: 0 :: 1 :: 0 :: 0 :: 0 :: 0 :: 0 :: 0 :: 0 :: 0 ::
        0 :: 0 :: 0 :: 0 :: 0 :: 0 :: 0 :: idb) 0).map
        DocListR.size_in_bytes = .ok (25 + tc.itemsize * n) := by
  have hdvd : ((((0 : Nat) :: n % 256 :: n / 256 % 256 :: tc.ascii :: 48 ::
      1 :: 0 :: 0 :: 0 :: 1 :: 0 :: 0 :: 0 :: 0 :: 0 :: 0 :: 0 :: 0 ::
      0 :: 0 :: 0 :: 0 :: 0 :: 0 :: 0 :: idb).drop 25).take
        (tc.itemsize * n)).length % tc.itemsize = 0 := by
    simp only [List.drop_succ_cons, List.drop_zero]
    rw [← hidb, List.take_length, hidb]
    exact Nat.mul_mod_right _ _
  obtain ⟨D, hdd⟩ := decode_docids_ok hl _ 25 tc n hdvd
  have hup := unpack_shape n tc idb hn
  have hbr := basicReader_fields hl _ 0 0 n tc .zero 1 1 0 0 0 25
    (25 + tc.itemsize * n) D hup hdd
  unfold doclist_reader
  rw [if_neg (by simp)]
  simp only [List.getD_cons_zero]
  rw [if_neg (by decide)]
  rw [hbr]
  simp only [Except.map, DocListR.raw_bytes, DocListR.size_in_bytes]
  have hlen : ((0 : Nat) :: n % 256 :: n / 256 % 256 :: tc.ascii :: 48 ::
      1 :: 0 :: 0 :: 0 :: 1 :: 0 :: 0 :: 0 :: 0 :: 0 :: 0 :: 0 :: 0 ::
      0 :: 0 :: 0 :: 0 :: 0 :: 0 :: 0 :: idb).length =
      25 + tc.itemsize * n := by
    simp only [List.length_cons, hidb]
    omega
  refine ⟨?_, ?_⟩
  · norm_num [WTc.itemsize]
    simp only [bindOk, Nat.sub_zero, List.drop_zero]
    rw [← hlen, List.take_length]
  · norm_num [WTc.itemsize]
    simp only [bindOk, Nat.sub_zero]
end Whoosh

namespace Whoosh
/-- C10. A doc-ids-only block of 1 to 32 postings is written in the
minimal fast path and read back as a `MinimalDocListReader` built from
the decoded ids without the source bytes, so its `raw_bytes()` is the
empty byte string and its `size_in_bytes()` is 0; a doc-ids-only block
of more than 32 postings gets the full header, and its reader returns
the exact encoded byte span from `raw_bytes()` and the full block
length from `size_in_bytes()`. -/
theorem c10_minimal_reader_empty_raw_bytes (hl : Bool) (fmt : Format)
    (posts : List RawPost) (bs : Bytes)
    (hfmt : fmt.only_docids = true) (hne : posts ≠ [])
    (hrange : ∀ p ∈ posts, 0 ≤ p.docid ∧ p.docid < 2 ^ 63)
    (hok : doclist_to_bytes hl fmt posts = .ok bs) :
    (posts.length ≤ 32 →
      doclist_reader hl bs 0 = .ok (.minimal (posts.map (·.docid)) []) ∧
      (doclist_reader hl bs 0).map DocListR.raw_bytes = .ok [] ∧
      (doclist_reader hl bs 0).map DocListR.size_in_bytes = .ok 0) ∧
    (32 < posts.length →
      (doclist_reader hl bs 0).map DocListR.raw_bytes = .ok bs ∧
      (doclist_reader hl bs 0).map DocListR.size_in_bytes =
        .ok bs.length) := by
  constructor
  · intro hlen
    rw [doclist_to_bytes, if_neg hne,
      if_pos (by simp [USE_MIN, hfmt, hlen])] at hok
    have hr := minimal_reader_of_bytes hl posts bs hne hlen hrange hok
    exact ⟨hr, by rw [hr]; rfl, by rw [hr]; rfl⟩
  · intro hlen
    rw [doclist_to_bytes, if_neg hne,
      if_neg (by simp [USE_MIN, hfmt]; omega)] at hok
    obtain ⟨tc, idb, he, hn, rfl⟩ :=
      full_doclist_bytes_shape hl fmt posts _ hfmt hok
    have hidb : idb.length = tc.itemsize * posts.length := by
      rw [encode_docids_ok_length hl _ tc idb he, List.length_map]
    have h := full_reader_raw_aux hl posts.length tc idb hn hidb
    refine ⟨h.1, ?_⟩
    rw [h.2]
    congr 1
    simp only [List.length_cons, hidb]
    omega

/-- C10 witness: the single posting with doc-id 5 encodes to the two
fast-path bytes `[128, 5]`, whose reader is minimal with empty
raw bytes and size 0. -/
theorem c10_minimal_reader_empty_raw_bytes_witness :
    doclist_reader true [128, 5] 0 = .ok (.minimal [5] []) ∧
    (doclist_reader true [128, 5] 0).map DocListR.raw_bytes = .ok [] ∧
    (doclist_reader true [128, 5] 0).map DocListR.size_in_bytes =
      .ok 0 :=
  (c10_minimal_reader_empty_raw_bytes true
    ⟨false, false, false, false, false⟩
    [⟨5, none, none, none, none, none, none⟩] [128, 5]
    rfl (by simp) (by decide) (by rfl)).1 (by decide)
end Whoosh
namespace Whoosh

theorem lookupS_append_some {α : Type} (k : String) (l l2 : List (String × α))
    (v : α) (h : lookupS k l = some v) : lookupS k (l ++ l2) = some v := by
  induction l with
  | nil => exact Option.noConfusion h
  | cons p rest ih =>
    obtain ⟨j, w⟩ := p
    simp only [lookupS, List.cons_append] at h ⊢
    by_cases hj : j = k
    · simpa [hj] using h
    · rw [if_neg hj] at h ⊢
      exact ih h

theorem lookupS_append_self {α : Type} (k : String) (l : List (String × α))
    (v : α) (h : lookupS k l = none) : lookupS k (l ++ [(k, v)]) = some v := by
  induction l with
  | nil => simp [lookupS]
  | cons p rest ih =>
    obtain ⟨j, w⟩ := p
    simp only [lookupS, List.cons_append] at h ⊢
    by_cases hj : j = k
    · rw [if_pos hj] at h
      exact Option.noConfusion h
    · rw [if_neg hj] at h ⊢
      exact ih h

theorem setS_lookup_self {α : Type} (k : String) (v : α)
    (l : List (String × α)) : lookupS k (setS k v l) = some v := by
  induction l with
  | nil => simp [setS, lookupS]
  | cons p rest ih =>
    obtain ⟨j, w⟩ := p
    by_cases hj : j = k
    · simp [setS, hj, lookupS]
    · simp only [setS, if_neg hj, lookupS]
      exact ih

theorem setS_lookup_ne {α : Type} (j k : String) (v : α)
    (l : List (String × α)) (hjk : j ≠ k) :
    lookupS j (setS k v l) = lookupS j l := by
  have hkj : ¬ k = j := fun h => hjk h.symm
  induction l with
  | nil =>
    simp only [setS, lookupS]
    rw [if_neg hkj]
  | cons p rest ih =>
    obtain ⟨i, w⟩ := p
    by_cases hi : i = k
    · subst hi
      simp only [setS, if_pos rfl, lookupS]
      rw [if_neg hkj, if_neg hkj]
    · simp only [setS, if_neg hi, lookupS]
      by_cases hij : i = j
      · rw [if_pos hij, if_pos hij]
      · rw [if_neg hij, if_neg hij]
        exact ih

theorem lookupS_mem {α : Type} (k : String) (l : List (String × α)) (v : α)
    (h : lookupS k l = some v) : (k, v) ∈ l := by
  induction l with
  | nil => exact Option.noConfusion h
  | cons p rest ih =>
    obtain ⟨j, w⟩ := p
    simp only [lookupS] at h
    by_cases hj : j = k
    · rw [if_pos hj] at h
      have hwv : w = v := Option.some.inj h
      subst hwv
      subst hj
      exact List.mem_cons_self _ _
    · rw [if_neg hj] at h
      exact List.mem_cons_of_mem _ (ih h)

end Whoosh
namespace Whoosh

theorem globStarSkip (ps cs : List Char) (h : globMatchL ps cs = true) :
    globMatchL ('*' :: ps) cs = true := by
  rw [globMatchL.eq_def]
  dsimp only
  rw [if_pos rfl]
  simp only [h, Bool.true_or]

theorem globMatchL_self (l : List Char) : globMatchL l l = true := by
  induction l with
  | nil => rw [globMatchL.eq_def]
  | cons c ps ih =>
    by_cases hc : c = '*'
    · subst hc
      rw [globMatchL.eq_def]
      dsimp only
      rw [if_pos rfl]
      simp only [globStarSkip ps ps ih, Bool.or_true]
    · rw [globMatchL.eq_def]
      dsimp only
      rw [if_neg hc]
      simp only [ih, Bool.and_true, decide_eq_true_eq]
      simp

theorem globMatch_self (p : String) : globMatch p p = true :=
  globMatchL_self p.toList

theorem strLen_pos_of_ne (p : String) (h : (p != "") = true) :
    0 < p.length := by
  have h2 : p ≠ "" := by simpa using h
  cases p with
  | mk l =>
    cases l with
    | nil => exact absurd rfl h2
    | cons a as => simp [String.length]

theorem monoFD_refl (s : Schema) : MonoFD s s :=
  ⟨fun _ _ h => h, fun _ _ h => h⟩

theorem monoFD_trans (s t u : Schema) (h1 : MonoFD s t) (h2 : MonoFD t u) :
    MonoFD s u :=
  ⟨fun k v h => h2.1 k v (h1.1 k v h), fun k v h => h2.2 k v (h1.2 k v h)⟩

end Whoosh
namespace Whoosh

theorem schemaAddSubs_nil (s : Schema) (parent : String) :
    schemaAddSubs s parent [] = .ok s := by
  rw [schemaAddSubs.eq_def]

theorem schemaAddSubs_cons (s : Schema) (parent pre : String) (g : FieldT)
    (rest : List (String × FieldT)) :
    schemaAddSubs s parent ((pre, g) :: rest) =
      (do
        let s2 ← schemaAdd s (pre ++ parent) g false
        schemaAddSubs s2 parent rest) := by
  rw [schemaAddSubs.eq_def]

theorem goodPrefixes_mk (subs : List (String × FieldT)) :
    FieldT.goodPrefixes (.mk subs) = subsGoodPrefixes subs := by
  rw [FieldT.goodPrefixes.eq_def]

theorem subsGoodPrefixes_cons (pre : String) (g : FieldT)
    (rest : List (String × FieldT)) :
    subsGoodPrefixes ((pre, g) :: rest) =
      ((pre != "") && FieldT.goodPrefixes g && subsGoodPrefixes rest) := by
  rw [subsGoodPrefixes.eq_def]

theorem schemaAdd_strong (m : Nat) :
    (∀ s name f glob s2, sizeOf f ≤ m → schemaAdd s name f glob = .ok s2 →
      MonoFD s s2 ∧
      (FieldT.goodPrefixes f = true → ∀ k : String,
        k.length < name.length →
        lookupS k s2.subfieldsMap = lookupS k s.subfieldsMap)) ∧
    (∀ s parent l s2, sizeOf l ≤ m → schemaAddSubs s parent l = .ok s2 →
      MonoFD s s2 ∧
      (subsGoodPrefixes l = true → ∀ k : String,
        k.length ≤ parent.length →
        lookupS k s2.subfieldsMap = lookupS k s.subfieldsMap)) := by
  induction m with
  | zero =>
    constructor
    · intro s name f glob s2 hsz h
      cases f with | mk subs =>
      simp [FieldT.mk.sizeOf_spec] at hsz
    · intro s parent l s2 hsz h
      cases l with
      | nil =>
        rw [schemaAddSubs_nil] at h
        obtain rfl := Except.ok.inj h
        exact ⟨monoFD_refl s, fun _ _ _ => rfl⟩
      | cons p rest =>
        simp [List.cons.sizeOf_spec] at hsz
  | succ m ih =>
    constructor
    · intro s name f glob s2 hsz h
      cases f with | mk subs =>
      have hsub : sizeOf subs ≤ m := by
        simp [FieldT.mk.sizeOf_spec] at hsz
        omega
      rw [schemaAdd.eq_def] at h
      dsimp only at h
      split at h
      · exact Except.noConfusion h
      split at h
      · exact Except.noConfusion h
      split at h
      · exact Except.noConfusion h
      by_cases hglob : (glob || hasGlobChar name) = true
      · rw [if_pos hglob] at h
        dsimp only at h
        obtain ⟨hm2, hsub2⟩ := ih.2 _ name subs s2 hsub h
        constructor
        · refine monoFD_trans _ _ _ ?_ hm2
          exact ⟨fun k v hv => hv,
                 fun k v hv => lookupS_append_some k _ _ v hv⟩
        · intro hgood k hklt
          have hkn : k ≠ name := by
            intro he
            rw [he] at hklt
            omega
          rw [goodPrefixes_mk] at hgood
          rw [hsub2 hgood k (Nat.le_of_lt hklt)]
          exact setS_lookup_ne k name _ _ hkn
      · rw [if_neg hglob] at h
        dsimp only at h
        obtain ⟨hm2, hsub2⟩ := ih.2 _ name subs s2 hsub h
        constructor
        · refine monoFD_trans _ _ _ ?_ hm2
          exact ⟨fun k v hv => lookupS_append_some k _ _ v hv,
                 fun k v hv => hv⟩
        · intro hgood k hklt
          have hkn : k ≠ name := by
            intro he
            rw [he] at hklt
            omega
          rw [goodPrefixes_mk] at hgood
          rw [hsub2 hgood k (Nat.le_of_lt hklt)]
          exact setS_lookup_ne k name _ _ hkn
    · intro s parent l s2 hsz h
      cases l with
      | nil =>
        rw [schemaAddSubs_nil] at h
        obtain rfl := Except.ok.inj h
        exact ⟨monoFD_refl s, fun _ _ _ => rfl⟩
      | cons p rest =>
        obtain ⟨pre, g⟩ := p
        have hg : sizeOf g ≤ m := by
          simp [List.cons.sizeOf_spec, Prod.mk.sizeOf_spec] at hsz
          omega
        have hr : sizeOf rest ≤ m := by
          simp [List.cons.sizeOf_spec] at hsz
          omega
        rw [schemaAddSubs_cons] at h
        cases e : schemaAdd s (pre ++ parent) g false with
        | error err =>
          rw [e] at h
          exact Except.noConfusion h
        | ok s3 =>
          rw [e, bindOk] at h
          obtain ⟨hm1, hs1⟩ := (ih.1) s (pre ++ parent) g false s3 hg e
          obtain ⟨hm2, hs2⟩ := (ih.2) s3 parent rest s2 hr h
          refine ⟨monoFD_trans _ _ _ hm1 hm2, ?_⟩
          intro hgood k hk
          rw [subsGoodPrefixes_cons] at hgood
          simp only [Bool.and_eq_true] at hgood
          obtain ⟨⟨hpre, hgg⟩, hrest⟩ := hgood
          rw [hs2 hrest k hk]
          refine hs1 hgg k ?_
      
          calc k.length ≤ parent.length := hk
            _ < pre.length + parent.length := by
                have := strLen_pos_of_ne pre hpre
                omega
            _ = (pre ++ parent).length := (String.length_append pre parent).symm

end Whoosh
namespace Whoosh

theorem schemaAdd_monoFD (s : Schema) (name : String) (f : FieldT)
    (glob : Bool) (s2 : Schema) (h : schemaAdd s name f glob = .ok s2) :
    MonoFD s s2 :=
  ((schemaAdd_strong (sizeOf f)).1 s name f glob s2 (Nat.le_refl _) h).1

theorem schemaAddSubs_monoFD (s : Schema) (parent : String)
    (l : List (String × FieldT)) (s2 : Schema)
    (h : schemaAddSubs s parent l = .ok s2) : MonoFD s s2 :=
  ((schemaAdd_strong (sizeOf l)).2 s parent l s2 (Nat.le_refl _) h).1

theorem schemaAddSubs_preserve (s : Schema) (parent : String)
    (l : List (String × FieldT)) (s2 : Schema)
    (h : schemaAddSubs s parent l = .ok s2)
    (hgood : subsGoodPrefixes l = true) (k : String)
    (hk : k.length ≤ parent.length) :
    lookupS k s2.subfieldsMap = lookupS k s.subfieldsMap :=
  ((schemaAdd_strong (sizeOf l)).2 s parent l s2 (Nat.le_refl _) h).2
    hgood k hk

theorem schemaAdd_ok_facts (s : Schema) (name : String)
    (subs : List (String × FieldT)) (glob : Bool) (s2 : Schema)
    (h : schemaAdd s name (.mk subs) glob = .ok s2) :
    ((glob || hasGlobChar name) = true →
      lookupS name s2.dynFields = some (FieldT.mk subs)) ∧
    ((glob || hasGlobChar name) = false →
      lookupS name s2.fields = some (FieldT.mk subs)) ∧
    (subsGoodPrefixes subs = true →
      lookupS name s2.subfieldsMap =
        some (subs.map (fun p => p.1 ++ name))) := by
  rw [schemaAdd.eq_def] at h
  dsimp only at h
  split at h
  · exact Except.noConfusion h
  split at h
  · exact Except.noConfusion h
  split at h
  · exact Except.noConfusion h
  rename_i hdup
  by_cases hglob : (glob || hasGlobChar name) = true
  · rw [if_pos hglob] at h
    dsimp only at h
    have hm := schemaAddSubs_monoFD _ name subs s2 h
    have hdnone : lookupS name s.dynFields = none := by
      rw [hglob] at hdup
      simp only [Bool.true_and, Bool.or_eq_true, not_or] at hdup
      exact Option.not_isSome_iff_eq_none.mp (by simpa using hdup.2)
    refine ⟨fun _ => ?_, fun hg => absurd hglob (by rw [hg]; simp), fun hgood => ?_⟩
    · exact hm.2 name _ (lookupS_append_self name s.dynFields _ hdnone)
    · rw [schemaAddSubs_preserve _ name subs s2 h hgood name (Nat.le_refl _)]
      exact setS_lookup_self name _ _
  · rw [if_neg hglob] at h
    dsimp only at h
    have hm := schemaAddSubs_monoFD _ name subs s2 h
    have hfnone : lookupS name s.fields = none := by
      simp only [Bool.or_eq_true, not_or] at hdup
      exact Option.not_isSome_iff_eq_none.mp (by simpa using hdup.1)
    refine ⟨fun hg => absurd hg hglob, fun _ => ?_, fun hgood => ?_⟩
    · exact hm.1 name _ (lookupS_append_self name s.fields _ hfnone)
    · rw [schemaAddSubs_preserve _ name subs s2 h hgood name (Nat.le_refl _)]
      exact setS_lookup_self name _ _

end Whoosh
namespace Whoosh

theorem schemaAdd_ok_bound (s : Schema) (name : String) (f : FieldT)
    (glob : Bool) (s2 : Schema) (h : schemaAdd s name f glob = .ok s2) :
    (∃ v, lookupS name s2.fields = some v) ∨
    (∃ v, lookupS name s2.dynFields = some v) := by
  cases f with | mk subs =>
  have hf := schemaAdd_ok_facts s name subs glob s2 h
  cases hgb : (glob || hasGlobChar name) with
  | true => exact Or.inr ⟨_, hf.1 hgb⟩
  | false => exact Or.inl ⟨_, hf.2.1 hgb⟩

theorem schemaAddSubs_mem_bound (parent : String)
    (l : List (String × FieldT)) :
    ∀ (s s2 : Schema), schemaAddSubs s parent l = .ok s2 →
    ∀ pg ∈ l, (∃ v, lookupS (pg.1 ++ parent) s2.fields = some v) ∨
      (∃ v, lookupS (pg.1 ++ parent) s2.dynFields = some v) := by
  induction l with
  | nil =>
    intro s s2 h pg hpg
    exact absurd hpg (List.not_mem_nil _)
  | cons p rest ih =>
    intro s s2 h pg hpg
    obtain ⟨pre, g⟩ := p
    rw [schemaAddSubs_cons] at h
    cases e : schemaAdd s (pre ++ parent) g false with
    | error err =>
      rw [e] at h
      exact Except.noConfusion h
    | ok s3 =>
      rw [e, bindOk] at h
      cases hpg with
      | head =>
        have hb := schemaAdd_ok_bound s (pre ++ parent) g false s3 e
        have hm := schemaAddSubs_monoFD s3 parent rest s2 h
        cases hb with
        | inl hb =>
          obtain ⟨v, hv⟩ := hb
          exact Or.inl ⟨v, hm.1 _ v hv⟩
        | inr hb =>
          obtain ⟨v, hv⟩ := hb
          exact Or.inr ⟨v, hm.2 _ v hv⟩
      | tail _ hmem => exact ih s3 s2 h pg hmem

theorem schemaAdd_subfield_bound (s : Schema) (name : String)
    (subs : List (String × FieldT)) (glob : Bool) (s2 : Schema)
    (h : schemaAdd s name (.mk subs) glob = .ok s2) :
    ∀ pg ∈ subs,
      (∃ v, lookupS (pg.1 ++ name) s2.fields = some v) ∨
      (∃ v, lookupS (pg.1 ++ name) s2.dynFields = some v) := by
  rw [schemaAdd.eq_def] at h
  dsimp only at h
  split at h
  · exact Except.noConfusion h
  split at h
  · exact Except.noConfusion h
  split at h
  · exact Except.noConfusion h
  by_cases hglob : (glob || hasGlobChar name) = true
  · rw [if_pos hglob] at h
    dsimp only at h
    exact schemaAddSubs_mem_bound name subs _ s2 h
  · rw [if_neg hglob] at h
    dsimp only at h
    exact schemaAddSubs_mem_bound name subs _ s2 h

theorem schemaGet_isSome_of_bound (s : Schema) (n : String)
    (h : (∃ v, lookupS n s.fields = some v) ∨
         (∃ v, lookupS n s.dynFields = some v)) :
    (schemaGet s n).isSome = true := by
  cases h with
  | inl h =>
    obtain ⟨v, hv⟩ := h
    rw [schemaGet, hv]
    rfl
  | inr h =>
    obtain ⟨v, hv⟩ := h
    rw [schemaGet]
    cases hf : lookupS n s.fields with
    | some f => rfl
    | none =>
      have hmem := lookupS_mem n s.dynFields v hv
      have hfind : (s.dynFields.find? (fun p => globMatch p.1 n)).isSome :=
        List.find?_isSome.mpr ⟨(n, v), hmem, globMatch_self n⟩
      obtain ⟨p, hp⟩ := Option.isSome_iff_exists.mp hfind
      rw [hp]
      rfl

theorem schemaGet_static (s : Schema) (n : String) (v : FieldT)
    (h : lookupS n s.fields = some v) : schemaGet s n = some v := by
  rw [schemaGet, h]

theorem schemaGet_dynamic (s : Schema) (n : String)
    (h : lookupS n s.fields = none) (p : String × FieldT)
    (hp : s.dynFields.find? (fun q => globMatch q.1 n) = some p) :
    schemaGet s n = some p.2 := by
  rw [schemaGet, h, hp]

end Whoosh
namespace Whoosh

/-- C7. `Schema.add` raises `FieldConfigurationError` for a name with a
leading underscore, a space, a duplicate static name, or a glob name
duplicating a dynamic pattern; when it succeeds, a name containing `*`
or `?` (or added with `glob=True`) is stored in the dynamic map and any
other name in the static map, the parent's subfield-name list is
recorded, and every direct subfield is present in the resulting schema
under its derived name (prefixes are nonempty, as in the source's
`"spell_%s"`); `Schema.__getitem__` consults the static map first and
only on a miss returns the first dynamic pattern that glob-matches, so
a dynamic pattern never shadows a static name. -/
theorem c7_schema_add_and_lookup (s : Schema) (name : String)
    (f : FieldT) (glob : Bool) :
    ((name.startsWith "_" = true ∨ name.contains ' ' = true ∨
        (lookupS name s.fields).isSome = true ∨
        ((glob || hasGlobChar name) = true ∧
          (lookupS name s.dynFields).isSome = true)) →
      ∃ msg, schemaAdd s name f glob = .error (.fieldConfig msg)) ∧
    (∀ s2, schemaAdd s name f glob = .ok s2 →
      ((glob || hasGlobChar name) = true →
        lookupS name s2.dynFields = some (FieldT.mk f.subs)) ∧
      ((glob || hasGlobChar name) = false →
        lookupS name s2.fields = some (FieldT.mk f.subs)) ∧
      (FieldT.goodPrefixes f = true →
        lookupS name s2.subfieldsMap =
          some (f.subs.map (fun p => p.1 ++ name))) ∧
      (∀ pg ∈ f.subs, (schemaGet s2 (pg.1 ++ name)).isSome = true)) ∧
    (∀ v, lookupS name s.fields = some v → schemaGet s name = some v) ∧
    (lookupS name s.fields = none →
      ∀ p, s.dynFields.find? (fun q => globMatch q.1 name) = some p →
        schemaGet s name = some p.2) := by
  cases f with | mk subs =>
  refine ⟨?_, ?_, ?_, ?_⟩
  · intro hrej
    rw [schemaAdd.eq_def]
    dsimp only
    by_cases h1 : name.startsWith "_" = true
    · exact ⟨_, by rw [if_pos h1]⟩
    by_cases h2 : name.contains ' ' = true
    · exact ⟨_, by rw [if_neg h1, if_pos h2]⟩
    have h3 : ((lookupS name s.fields).isSome ||
        (glob || hasGlobChar name) && (lookupS name s.dynFields).isSome) =
        true := by
      rcases hrej with h | h | h | ⟨hg, hd⟩
      · exact absurd h h1
      · exact absurd h h2
      · simp [h]
      · simp [hg, hd]
    exact ⟨_, by rw [if_neg h1, if_neg h2, if_pos h3]⟩
  · intro s2 h
    have hf := schemaAdd_ok_facts s name subs glob s2 h
    have hsb := schemaAdd_subfield_bound s name subs glob s2 h
    refine ⟨hf.1, hf.2.1, ?_, ?_⟩
    · intro hgood
      rw [goodPrefixes_mk] at hgood
      exact hf.2.2 hgood
    · intro pg hpg
      exact schemaGet_isSome_of_bound s2 _ (hsb pg hpg)
  · intro v hv
    exact schemaGet_static s name v hv
  · intro hnone p hp
    exact schemaGet_dynamic s name hnone p hp

/-- C7 witness: adding a duplicate of the static field `"id"` is
rejected with a field-configuration error. -/
theorem c7_schema_add_and_lookup_witness :
    ∃ msg, schemaAdd ⟨[("id", FieldT.mk [])], [], []⟩ "id"
      (FieldT.mk []) false = .error (.fieldConfig msg) :=
  (c7_schema_add_and_lookup ⟨[("id", FieldT.mk [])], [], []⟩ "id"
      (FieldT.mk []) false).1
    (Or.inr (Or.inr (Or.inl (by simp [lookupS]))))

end Whoosh
